import Mathlib

/-!
Verification development for the bill-analyzer core (`bill_analyzer.py`).

The Python source works on OCR text with `re` patterns.  We shallowly embed
the text as `List Char` (Python `str` is a sequence of code points, as is
`String.data`).  Each regular expression of the source is embedded as a list
of token matchers; a token maps a start position to the list of possible end
positions in exactly the backtracking-preference order of Python's `re`
engine (greedy pieces longest-first, lazy pieces shortest-first, alternations
left to right), and a whole pattern succeeds at the first position, in
left-to-right scan order, at which some choice of token ends survives - the
leftmost-match rule of `re.search` / `re.findall`.

Python-specific character classes (`\s`, `\d`, `[a-z]` under IGNORECASE,
`str.lower`, `str.strip`) are embedded over the ASCII range, which is the
range the source's patterns themselves are written in.
-/

/-- Python `\s` (ASCII range): space, tab, newline, vertical tab, form feed,
carriage return.  Used by `re.sub(r'\s+', ...)`, `\s*`, `\s+` and `str.strip`. -/
def isPySpace (c : Char) : Bool :=
  c.toNat == 32 || c.toNat == 9 || c.toNat == 10 || c.toNat == 11 ||
  c.toNat == 12 || c.toNat == 13

/-- Python `\d` (ASCII digits 0-9). -/
def isDigitC (c : Char) : Bool :=
  48 ≤ c.toNat && c.toNat ≤ 57

/-- The currency-symbol class `[$£€]` of the amount patterns. -/
def isCurrency (c : Char) : Bool :=
  c == '$' || c == '£' || c == '€'

/-- `[a-z]` under `re.IGNORECASE`: any basic latin letter. -/
def isAzCI (c : Char) : Bool :=
  97 ≤ c.toLower.toNat && c.toLower.toNat ≤ 122

/-- `[A-Z0-9]` under `re.IGNORECASE`: letters or digits. -/
def isAlnumCI (c : Char) : Bool :=
  isAzCI c || isDigitC c

/-- The class `[-\s]` of the first account-number pattern. -/
def isDashOrSpace (c : Char) : Bool :=
  c == '-' || isPySpace c

/-- Case-insensitive character match, as `re.IGNORECASE` compares a pattern
character with a text character. -/
def ciCharEq (a b : Char) : Bool :=
  a.toLower == b.toLower

/-- Does `l` begin with the literal `pat`, case-insensitively? -/
def ciStarts : List Char → List Char → Bool
  | [], _ => true
  | _ :: _, [] => false
  | p :: ps, c :: cs => ciCharEq p c && ciStarts ps cs

/-- Does `pat` occur, case-insensitively, anywhere in `s`?  This is
`re.search` for a literal pattern. -/
def ciSearch (pat : List Char) : List Char → Bool
  | [] => ciStarts pat []
  | c :: cs => ciStarts pat (c :: cs) || ciSearch pat (cs)

/-- Length of the maximal run of characters satisfying `p` at the front. -/
def takeRun (p : Char → Bool) : List Char → Nat
  | [] => 0
  | c :: cs => if p c then takeRun p cs + 1 else 0

/-- `posList a n = [a, a+1, ..., a+n-1]` - the scan order of the regex engine. -/
def posList (a : Nat) : Nat → List Nat
  | 0 => []
  | n + 1 => a :: posList (a + 1) n

/-- First `some` produced by `f` along `l` (the order of `l` is the
backtracking / scan preference order). -/
def firstSome : List α → (α → Option β) → Option β
  | [], _ => none
  | a :: l, f =>
    match f a with
    | some b => some b
    | none => firstSome l f

/-- Concatenation of a list of lists, preserving order. -/
def catLists : List (List α) → List α
  | [] => []
  | l :: ls => l ++ catLists ls

/-- `descList i n lo = [i+n, i+n-1, ..., i+lo]` when `lo ≤ n`, else `[]`:
the end positions of a greedy repetition, longest first. -/
def descList (i : Nat) : Nat → Nat → List Nat
  | 0, lo => if lo = 0 then [i] else []
  | n + 1, lo => if n + 1 < lo then [] else (i + (n + 1)) :: descList i n lo

/-- A token matcher: from a start position, the possible end positions in
backtracking-preference order. -/
abbrev Token : Type := List Char → Nat → List Nat

/-- A literal (case-insensitive under IGNORECASE), e.g. `Total`. -/
def tokLit (lit : List Char) : Token := fun s i =>
  if ciStarts lit (s.drop i) then [i + lit.length] else []

/-- A single-character class, e.g. `[$£€]` or slash-or-dash. -/
def tokCls (p : Char → Bool) : Token := fun s i =>
  match s.drop i with
  | [] => []
  | c :: _ => if p c then [i + 1] else []

/-- Greedy `p*`: zero or more class characters, longest first. -/
def tokStar (p : Char → Bool) : Token := fun s i =>
  descList i (takeRun p (s.drop i)) 0

/-- Greedy `p+`: one or more class characters, longest first. -/
def tokPlus (p : Char → Bool) : Token := fun s i =>
  descList i (takeRun p (s.drop i)) 1

/-- Greedy bounded repetition `p{lo,hi}`, longest first. -/
def tokRep (p : Char → Bool) (lo hi : Nat) : Token := fun s i =>
  descList i (min (takeRun p (s.drop i)) hi) lo

/-- Greedy `t?`: try the token, then the empty match. -/
def tokOpt (t : Token) : Token := fun s i =>
  t s i ++ [i]

/-- Alternation `a|b`, left branch preferred. -/
def tokAlt (a b : Token) : Token := fun s i =>
  a s i ++ b s i

/-- Alternation of several literals, in the given order. -/
def tokAlts (ls : List String) : Token := fun s i =>
  catLists (ls.map (fun l => tokLit l.data s i))

/-- Lazy `.*?` under DOTALL: any characters, shortest first. -/
def tokLazyAny : Token := fun s i =>
  posList i (s.length + 1 - i)

/-- The anchor `$` (no MULTILINE): end of text, or just before a final
newline. -/
def tokEnd : Token := fun s i =>
  if i = s.length || s.drop i == ['\n'] then [i] else []

/-- Run a sequence of tokens: all reachable end positions, in the
depth-first backtracking order of Python's `re`. -/
def runToks (ts : List Token) (s : List Char) (i : Nat) : List Nat :=
  match ts with
  | [] => [i]
  | t :: rest => catLists ((t s i).map (fun j => runToks rest s j))

/-- A pattern with a single capture group: tokens before the group, tokens
of the group, tokens after the group. -/
structure Pat1 where
  pre : List Token
  cap : List Token
  post : List Token

/-- Match a `Pat1` at a fixed start position; on success, the first (in
backtracking order) pair of capture-group boundaries. -/
def matchAt (p : Pat1) (s : List Char) (i : Nat) : Option (Nat × Nat) :=
  firstSome (runToks p.pre s i) (fun j =>
    firstSome (runToks p.cap s j) (fun k =>
      if runToks p.post s k = [] then none else some (j, k)))

/-- Leftmost match of a `Pat1` over the whole text: capture-group boundaries
of the first match found when scanning start positions left to right. -/
def searchFirst (p : Pat1) (s : List Char) : Option (Nat × Nat) :=
  firstSome (posList 0 (s.length + 1)) (fun i => matchAt p s i)

/-- The characters of `s` from position `a` (inclusive) to `b` (exclusive). -/
def sliceL (s : List Char) (a b : Nat) : List Char :=
  (s.drop a).take (b - a)

/-- Python `str.strip()` (ASCII whitespace). -/
def stripWS (l : List Char) : List Char :=
  ((l.dropWhile isPySpace).reverse.dropWhile isPySpace).reverse

/-- Helper for `collapseWS`; the flag records whether the previous character
was whitespace (i.e. whether we are inside a run already replaced). -/
def collapseAux : Bool → List Char → List Char
  | _, [] => []
  | prevWS, c :: cs =>
    if isPySpace c then
      if prevWS then collapseAux true cs else ' ' :: collapseAux true cs
    else c :: collapseAux false cs

/-- Python `re.sub(r'\s+', ' ', l)`: every maximal whitespace run becomes a
single space. -/
def collapseWS (l : List Char) : List Char :=
  collapseAux false l

/-- The group of a pattern's leftmost match, as `re.findall(...)[0]` /
`re.search(...).group(1)` return it. -/
def firstGroupStr (p : Pat1) (text : String) : Option String :=
  (searchFirst p text.data).map (fun jk => ⟨sliceL text.data jk.1 jk.2⟩)

/-! ## Field extractors (from `bill_analyzer.py`) -/

/-- The month alternation `(?:Jan|Feb|Mar|Apr|May|Jun|Jul|Aug|Sep|Oct|Nov|Dec)`. -/
def monthToks : Token :=
  tokAlts ["Jan", "Feb", "Mar", "Apr", "May", "Jun", "Jul", "Aug", "Sep",
    "Oct", "Nov", "Dec"]

/-- The slash-or-dash class of the numeric date pattern. -/
def sepSlashDash : Token :=
  tokCls (fun c => c == '/' || c == '-')

/-- Date pattern 1: a 1-2 digit day, slash or dash, 1-2 digit month, slash
or dash, 2-4 digit year (the whole match is the group). -/
def dateP1 : Pat1 :=
  ⟨[], [tokRep isDigitC 1 2, sepSlashDash, tokRep isDigitC 1 2, sepSlashDash,
    tokRep isDigitC 2 4], []⟩

/-- Date pattern 2: `(\d{1,2}\s+(?:Jan|...|Dec)[a-z]*\s+\d{2,4})`. -/
def dateP2 : Pat1 :=
  ⟨[], [tokRep isDigitC 1 2, tokPlus isPySpace, monthToks, tokStar isAzCI,
    tokPlus isPySpace, tokRep isDigitC 2 4], []⟩

/-- Date pattern 3: `((?:Jan|...|Dec)[a-z]*\s+\d{1,2},?\s+\d{2,4})`. -/
def dateP3 : Pat1 :=
  ⟨[], [monthToks, tokStar isAzCI, tokPlus isPySpace, tokRep isDigitC 1 2,
    tokOpt (tokLit [',']), tokPlus isPySpace, tokRep isDigitC 2 4], []⟩

/-- Date pattern 4:
`(?:\(|-)?\s*(\d{1,2}(?:st|nd|rd|th)?\s+(?:Jan|...|Dec)[a-z]*\s+\d{4})\s*(?:\)|-)?`. -/
def dateP4 : Pat1 :=
  ⟨[tokOpt (tokAlt (tokLit ['(']) (tokLit ['-'])), tokStar isPySpace],
   [tokRep isDigitC 1 2, tokOpt (tokAlts ["st", "nd", "rd", "th"]),
    tokPlus isPySpace, monthToks, tokStar isAzCI, tokPlus isPySpace,
    tokRep isDigitC 4 4],
   [tokStar isPySpace, tokOpt (tokAlt (tokLit [')']) (tokLit ['-']))]⟩

/-- The ordered date-pattern list of `extract_date`. -/
def date_patterns : List Pat1 := [dateP1, dateP2, dateP3, dateP4]

/-- `extract_date`: first pattern that matches anywhere wins, and its first
match's group is returned. -/
def extract_date (text : String) : Option String :=
  firstSome date_patterns (fun p => firstGroupStr p text)

/-- The capture group `(\d+\.\d{2})` shared by all seven amount patterns. -/
def capTwoDec : List Token :=
  [tokPlus isDigitC, tokLit ['.'], tokRep isDigitC 2 2]

/-- Amount pattern 1: `[$£€](\d+\.\d{2})`. -/
def amountP1 : Pat1 := ⟨[tokCls isCurrency], capTwoDec, []⟩

/-- Amount pattern 2: `£(\d+\.\d{2})`. -/
def amountP2 : Pat1 := ⟨[tokLit ['£']], capTwoDec, []⟩

/-- Amount pattern 3: `(\d+\.\d{2})[$£€]`. -/
def amountP3 : Pat1 := ⟨[], capTwoDec, [tokCls isCurrency]⟩

/-- Amount pattern 4: `Total:?\s*[$£€]?(\d+\.\d{2})`. -/
def amountP4 : Pat1 :=
  ⟨[tokLit "Total".data, tokOpt (tokLit [':']), tokStar isPySpace,
    tokOpt (tokCls isCurrency)], capTwoDec, []⟩

/-- Amount pattern 5: `Amount\s*due:?\s*[$£€]?(\d+\.\d{2})`. -/
def amountP5 : Pat1 :=
  ⟨[tokLit "Amount".data, tokStar isPySpace, tokLit "due".data,
    tokOpt (tokLit [':']), tokStar isPySpace, tokOpt (tokCls isCurrency)],
   capTwoDec, []⟩

/-- Amount pattern 6: `Total\s+(?:Electricity|Gas)?\s+Charges\s*[£$€]?(\d+\.\d{2})`. -/
def amountP6 : Pat1 :=
  ⟨[tokLit "Total".data, tokPlus isPySpace,
    tokOpt (tokAlts ["Electricity", "Gas"]), tokPlus isPySpace,
    tokLit "Charges".data, tokStar isPySpace, tokOpt (tokCls isCurrency)],
   capTwoDec, []⟩

/-- Amount pattern 7: `Total\s+charges\s+for\s+bill\s*[£$€]?(\d+\.\d{2})`. -/
def amountP7 : Pat1 :=
  ⟨[tokLit "Total".data, tokPlus isPySpace, tokLit "charges".data,
    tokPlus isPySpace, tokLit "for".data, tokPlus isPySpace,
    tokLit "bill".data, tokStar isPySpace, tokOpt (tokCls isCurrency)],
   capTwoDec, []⟩

/-- The ordered amount-pattern list of `extract_amount`. -/
def amount_patterns : List Pat1 :=
  [amountP1, amountP2, amountP3, amountP4, amountP5, amountP6, amountP7]

/-- `extract_amount`: first pattern that matches anywhere wins, and its first
match's numeric capture group is returned (currency symbol discarded). -/
def extract_amount (text : String) : Option String :=
  firstSome amount_patterns (fun p => firstGroupStr p text)

/-- `extract_bill_type`: `re.search('gas', ...)` first, then
`re.search('electric|electricity', ...)`, else `Unknown`. -/
def extract_bill_type (text : String) : String :=
  if ciSearch "gas".data text.data then "Gas"
  else if ciSearch "electric".data text.data ||
      ciSearch "electricity".data text.data then "Electric"
  else "Unknown"

/-- Account pattern label: `Account\s*(?:Number|No|#)?\s*:?\s*`. -/
def acctLabelToks : List Token :=
  [tokLit "Account".data, tokStar isPySpace, tokOpt (tokAlts ["Number", "No", "#"]),
   tokStar isPySpace, tokOpt (tokLit [':']), tokStar isPySpace]

/-- Account pattern 1: `Account\s*(?:Number|No|#)?\s*:?\s*(\d+[-\s]?\d+)`. -/
def acctP1 : Pat1 :=
  ⟨acctLabelToks, [tokPlus isDigitC, tokOpt (tokCls isDashOrSpace),
    tokPlus isDigitC], []⟩

/-- Account pattern 2: `Account\s*(?:Number|No|#)?\s*:?\s*([A-Z0-9]+)`. -/
def acctP2 : Pat1 := ⟨acctLabelToks, [tokPlus isAlnumCI], []⟩

/-- Account pattern 3: `Supply\s+number\s*:?\s*([A-Z0-9]+)`. -/
def acctP3 : Pat1 :=
  ⟨[tokLit "Supply".data, tokPlus isPySpace, tokLit "number".data,
    tokStar isPySpace, tokOpt (tokLit [':']), tokStar isPySpace],
   [tokPlus isAlnumCI], []⟩

/-- The ordered account-number pattern list. -/
def account_patterns : List Pat1 := [acctP1, acctP2, acctP3]

/-- `extract_account_number`. -/
def extract_account_number (text : String) : Option String :=
  firstSome account_patterns (fun p => firstGroupStr p text)

/-- Meter pattern 1: `Meter\s+(?:Number|No|#)?\s*:?\s*([A-Z0-9]+)`. -/
def meterP1 : Pat1 :=
  ⟨[tokLit "Meter".data, tokPlus isPySpace, tokOpt (tokAlts ["Number", "No", "#"]),
    tokStar isPySpace, tokOpt (tokLit [':']), tokStar isPySpace],
   [tokPlus isAlnumCI], []⟩

/-- Meter pattern 2: `(?:for|from)\s+Meter\s+([A-Z0-9]+)`. -/
def meterP2 : Pat1 :=
  ⟨[tokAlts ["for", "from"], tokPlus isPySpace, tokLit "Meter".data,
    tokPlus isPySpace], [tokPlus isAlnumCI], []⟩

/-- The ordered meter-number pattern list. -/
def meter_patterns : List Pat1 := [meterP1, meterP2]

/-- `extract_meter_number`. -/
def extract_meter_number (text : String) : Option String :=
  firstSome meter_patterns (fun p => firstGroupStr p text)

/-- Address pattern 1: `Supply\s+Address:?\s*(.*?)(?:Postcode|$)`
(IGNORECASE and DOTALL). -/
def addrP1 : Pat1 :=
  ⟨[tokLit "Supply".data, tokPlus isPySpace, tokLit "Address".data,
    tokOpt (tokLit [':']), tokStar isPySpace],
   [tokLazyAny], [tokAlt (tokLit "Postcode".data) tokEnd]⟩

/-- Address pattern 2: `Address:?\s*(.*?)(?:Postcode|$)`. -/
def addrP2 : Pat1 :=
  ⟨[tokLit "Address".data, tokOpt (tokLit [':']), tokStar isPySpace],
   [tokLazyAny], [tokAlt (tokLit "Postcode".data) tokEnd]⟩

/-- The ordered address-pattern list. -/
def address_patterns : List Pat1 := [addrP1, addrP2]

/-- `extract_address`: the matched group is stripped, then every whitespace
run is collapsed to one space. -/
def extract_address (text : String) : Option String :=
  firstSome address_patterns (fun p =>
    (searchFirst p text.data).map (fun jk =>
      ⟨collapseWS (stripWS (sliceL text.data jk.1 jk.2))⟩))

/-- The `date_pattern_part` of the tariff extractor:
`\d{1,2}(?:st|nd|rd|th)?\s+(?:Jan|...|Dec)[a-z]*\s+\d{2,4}`. -/
def tariffDateToks : List Token :=
  [tokRep isDigitC 1 2, tokOpt (tokAlts ["st", "nd", "rd", "th"]),
   tokPlus isPySpace, monthToks, tokStar isAzCI, tokPlus isPySpace,
   tokRep isDigitC 2 4]

/-- Match, at one start position, the tariff pattern
`(name)\s*\(\s*(date)\s*-\s*(date)\s*\)`; on success the end of group 1 and
the boundaries of groups 2 and 3. -/
def matchTariffAt (nm : String) (s : List Char) (i : Nat) :
    Option (Nat × Nat × Nat × Nat × Nat) :=
  firstSome (runToks [tokLit nm.data] s i) (fun a =>
    firstSome (runToks [tokStar isPySpace, tokLit ['('], tokStar isPySpace] s a)
      (fun b =>
        firstSome (runToks tariffDateToks s b) (fun c =>
          firstSome (runToks [tokStar isPySpace, tokLit ['-'], tokStar isPySpace] s c)
            (fun d =>
              firstSome (runToks tariffDateToks s d) (fun e =>
                if runToks [tokStar isPySpace, tokLit [')']] s e = [] then none
                else some (a, b, c, d, e))))))

/-- `re.search` of the tariff pattern for one name: leftmost match, with the
start position prepended. -/
def searchTariff (nm : String) (s : List Char) :
    Option (Nat × Nat × Nat × Nat × Nat × Nat) :=
  firstSome (posList 0 (s.length + 1)) (fun i =>
    (matchTariffAt nm s i).map (fun r => (i, r)))

/-- The fixed, closed tariff vocabulary of the source. -/
def tariff_names : List String :=
  ["Cosy Octopus", "Agile Octopus", "Octopus Tracker"]

/-- `extract_tariff_and_billing_period`: try each known tariff name in order;
on a match return the stripped groups (tariff as spelled in the text, start
date, end date); otherwise three `none`s. -/
def extract_tariff_and_billing_period (text : String) :
    Option String × Option String × Option String :=
  match firstSome tariff_names (fun nm => searchTariff nm text.data) with
  | some (i, a, b, c, d, e) =>
    (some ⟨stripWS (sliceL text.data i a)⟩, some ⟨stripWS (sliceL text.data b c)⟩,
      some ⟨stripWS (sliceL text.data d e)⟩)
  | none => (none, none, none)

/-! ## Fingerprint, records, batch processing, duplicate detection -/

/-- The normalization of `calculate_fingerprint`:
`re.sub(r'\s+', '', text.lower())` - lower-case, then remove all whitespace. -/
def pyNormalize (text : String) : List Char :=
  (text.data.map Char.toLower).filter (fun c => !isPySpace c)

/-- `calculate_fingerprint`: the MD5 hex digest of the normalized text.  The
hash itself is external library code; it is embedded as an arbitrary
deterministic function `md5hex` of the normalized text. -/
def calculate_fingerprint (md5hex : String → String) (text : String) : String :=
  md5hex ⟨pyNormalize text⟩

/-- One row of `bill_data` as assembled in `process_bill_images`. -/
structure BillRecord where
  filename : String
  date : Option String
  tariff : Option String
  startDate : Option String
  endDate : Option String
  amount : Option String
  billType : Option String
  accountNumber : Option String
  meterNumber : Option String
  address : Option String
  fingerprint : String
deriving DecidableEq, Repr

/-- The per-document record assembly inside `process_bill_images`'s loop. -/
def buildRecord (md5hex : String → String) (filename text : String) : BillRecord :=
  let tpe := extract_tariff_and_billing_period text
  { filename := filename
    date := extract_date text
    tariff := tpe.1
    startDate := tpe.2.1
    endDate := tpe.2.2
    amount := extract_amount text
    billType := some (extract_bill_type text)
    accountNumber := extract_account_number text
    meterNumber := extract_meter_number text
    address := extract_address text
    fingerprint := calculate_fingerprint md5hex text }

/-- `process_bill_images`: the enumeration of files with the external
OCR call is embedded as a list of (filename, OCR outcome) pairs; a document
whose OCR/processing raises is caught by the `try/except`, reported, and
contributes no record; processing continues with the next document. -/
def process_bill_images (md5hex : String → String) :
    List (String × Except String String) → List BillRecord
  | [] => []
  | (fn, Except.ok text) :: rest =>
    buildRecord md5hex fn text :: process_bill_images md5hex rest
  | (_, Except.error _) :: rest => process_bill_images md5hex rest

/-- A duplicate group as `identify_duplicates` emits it: either an exact
content match (shared fingerprint) or a same-date/amount/type group. -/
inductive DupGroup where
  | exactContent (files : List String) (fingerprint : String)
  | sameDateAmountType (files : List String) (date amount billType : String)
deriving DecidableEq, Repr

/-- The semantic grouping key (Date, Amount, Type); `none` when any of the
three is absent, mirroring pandas `groupby` dropping rows with a NaN key. -/
def semKey (r : BillRecord) : Option (String × String × String) :=
  match r.date, r.amount, r.billType with
  | some d, some a, some t => some (d, a, t)
  | _, _, _ => none

/-- Helper for `distincts`, skipping elements already seen. -/
def distinctsAux [DecidableEq α] (seen : List α) : List α → List α
  | [] => []
  | a :: rest =>
    if a ∈ seen then distinctsAux seen rest
    else a :: distinctsAux (a :: seen) rest

/-- The distinct values of a list, each kept at its first occurrence (the
set of keys that `value_counts` / `groupby` enumerate; their enumeration
order is not significant for the properties below). -/
def distincts [DecidableEq α] (l : List α) : List α :=
  distinctsAux [] l

/-- Pass 1 of `identify_duplicates`: every fingerprint shared by more than
one record yields one exact-content group listing the matching filenames. -/
def exactGroups (data : List BillRecord) : List DupGroup :=
  ((distincts (data.map (fun r => r.fingerprint))).filter
      (fun f => 1 < (data.filter (fun r => r.fingerprint == f)).length)).map
    (fun f =>
      DupGroup.exactContent
        ((data.filter (fun r => r.fingerprint == f)).map (fun r => r.filename)) f)

/-- Pass 2 of `identify_duplicates`: group by the (Date, Amount, Type)
triple (rows with an absent component drop out of the grouping); a group is
emitted when it has more than one member and more than one distinct
fingerprint. -/
def semanticGroups (data : List BillRecord) : List DupGroup :=
  (distincts (data.filterMap semKey)).filterMap (fun k =>
    let g := data.filter (fun r => semKey r == some k)
    if 1 < g.length ∧ 1 < (distincts (g.map (fun r => r.fingerprint))).length then
      some (DupGroup.sameDateAmountType (g.map (fun r => r.filename)) k.1 k.2.1 k.2.2)
    else none)

/-- `identify_duplicates`: the exact-content groups followed by the
semantic-key groups. -/
def identify_duplicates (data : List BillRecord) : List DupGroup :=
  exactGroups data ++ semanticGroups data

/-! ## Basic facts about characters -/

theorem char_toNat_ofNat_small : ∀ n : Nat, n < 123 → (Char.ofNat n).toNat = n := by
  decide

theorem char_eq_of_toNat_eq {c d : Char} (h : c.toNat = d.toNat) : c = d := by
  have hc := Char.ofNat_toNat c
  have hd := Char.ofNat_toNat d
  rw [← hc, ← hd, h]

theorem toLower_toNat (c : Char) :
    c.toLower.toNat = if 65 ≤ c.toNat ∧ c.toNat ≤ 90 then c.toNat + 32 else c.toNat := by
  unfold Char.toLower
  by_cases h : 65 ≤ c.toNat ∧ c.toNat ≤ 90
  · rw [if_pos h, if_pos ⟨h.1, h.2⟩]
    exact char_toNat_ofNat_small (c.toNat + 32) (by omega)
  · rw [if_neg h, if_neg (by omega)]

theorem isPySpace_toLower (c : Char) : isPySpace c.toLower = isPySpace c := by
  rw [Bool.eq_iff_iff]
  simp only [isPySpace, Bool.or_eq_true, Nat.beq_eq_true_eq, toLower_toNat]
  by_cases h : 65 ≤ c.toNat ∧ c.toNat ≤ 90
  · rw [if_pos h]; omega
  · rw [if_neg h]

theorem ciCharEq_toLower {a b : Char} (h : ciCharEq a b = true) :
    a.toLower = b.toLower := by
  simpa [ciCharEq] using h

theorem isPySpace_eq_of_ciCharEq {a b : Char} (h : ciCharEq a b = true) :
    isPySpace a = isPySpace b := by
  rw [← isPySpace_toLower a, ← isPySpace_toLower b, ciCharEq_toLower h]

theorem eq_of_ciCharEq_stable {a b : Char} (h : ciCharEq a b = true)
    (hs : a.toLower = a) (hu : ¬ (65 ≤ b.toNat ∧ b.toNat ≤ 90)) : b = a := by
  have hb : b.toLower = b := by
    apply char_eq_of_toNat_eq
    rw [toLower_toNat, if_neg hu]
  have := ciCharEq_toLower h
  rw [hs, hb] at this
  exact this.symm

/-! ## Facts about the small list combinators -/

theorem mem_posList {k a n : Nat} : k ∈ posList a n ↔ a ≤ k ∧ k < a + n := by
  induction n generalizing a with
  | zero => simp only [posList, List.not_mem_nil, false_iff]; omega
  | succ m ih =>
    simp only [posList, List.mem_cons, ih]
    omega

theorem firstSome_nil (f : α → Option β) : firstSome [] f = none := rfl

theorem firstSome_cons (a : α) (l : List α) (f : α → Option β) :
    firstSome (a :: l) f =
      match f a with
      | some b => some b
      | none => firstSome l f := rfl

theorem firstSome_cons_some {a : α} {l : List α} {f : α → Option β} {b : β}
    (h : f a = some b) : firstSome (a :: l) f = some b := by
  rw [firstSome_cons, h]

theorem firstSome_cons_none {a : α} {l : List α} {f : α → Option β}
    (h : f a = none) : firstSome (a :: l) f = firstSome l f := by
  rw [firstSome_cons, h]

theorem exists_of_firstSome {l : List α} {f : α → Option β} {b : β}
    (h : firstSome l f = some b) : ∃ a ∈ l, f a = some b := by
  induction l with
  | nil => simp [firstSome] at h
  | cons a t ih =>
    cases hfa : f a with
    | some c =>
      rw [firstSome_cons_some hfa] at h
      exact ⟨a, List.mem_cons_self a t, by rw [hfa, h]⟩
    | none =>
      rw [firstSome_cons_none hfa] at h
      obtain ⟨x, hx, hfx⟩ := ih h
      exact ⟨x, List.mem_cons_of_mem a hx, hfx⟩

theorem firstSome_eq_none {l : List α} {f : α → Option β}
    (h : ∀ a ∈ l, f a = none) : firstSome l f = none := by
  induction l with
  | nil => rfl
  | cons a t ih =>
    rw [firstSome_cons_none (h a (List.mem_cons_self a t))]
    exact ih (fun x hx => h x (List.mem_cons_of_mem a hx))

theorem none_of_firstSome_eq_none {l : List α} {f : α → Option β}
    (h : firstSome l f = none) : ∀ a ∈ l, f a = none := by
  induction l with
  | nil => simp
  | cons a t ih =>
    intro x hx
    cases hfa : f a with
    | some c => rw [firstSome_cons_some hfa] at h; exact absurd h (by simp)
    | none =>
      rw [firstSome_cons_none hfa] at h
      rcases List.mem_cons.mp hx with rfl | hxt
      · exact hfa
      · exact ih h x hxt

theorem firstSome_congr {l : List α} {f g : α → Option β}
    (h : ∀ a ∈ l, f a = g a) : firstSome l f = firstSome l g := by
  induction l with
  | nil => rfl
  | cons a t ih =>
    rw [firstSome_cons, firstSome_cons, h a (List.mem_cons_self a t)]
    cases g a with
    | some b => rfl
    | none => exact ih (fun x hx => h x (List.mem_cons_of_mem a hx))

theorem firstSome_map_fuse (l : List α) (f : α → Option β) (g : β → γ) :
    firstSome l (fun x => (f x).map g) = (firstSome l f).map g := by
  induction l with
  | nil => rfl
  | cons a t ih =>
    rw [firstSome_cons, firstSome_cons]
    cases f a with
    | some b => rfl
    | none => exact ih

theorem firstSome_append (l1 l2 : List α) (f : α → Option β) :
    firstSome (l1 ++ l2) f =
      match firstSome l1 f with
      | some b => some b
      | none => firstSome l2 f := by
  induction l1 with
  | nil => simp [firstSome_nil]
  | cons a t ih =>
    rw [List.cons_append, firstSome_cons, firstSome_cons]
    cases f a with
    | some b => rfl
    | none => exact ih

theorem firstSome_posList_least {a n : Nat} {f : Nat → Option β} {b : β}
    (h : firstSome (posList a n) f = some b) :
    ∃ i, a ≤ i ∧ i < a + n ∧ f i = some b ∧ ∀ j, a ≤ j → j < i → f j = none := by
  induction n generalizing a with
  | zero => simp [posList, firstSome_nil] at h
  | succ m ih =>
    rw [posList] at h
    cases hfa : f a with
    | some c =>
      rw [firstSome_cons_some hfa] at h
      exact ⟨a, le_refl a, by omega, by rw [hfa, h], fun j h1 h2 => by omega⟩
    | none =>
      rw [firstSome_cons_none hfa] at h
      obtain ⟨i, hi1, hi2, hi3, hi4⟩ := ih h
      refine ⟨i, by omega, by omega, hi3, fun j hj1 hj2 => ?_⟩
      rcases Nat.eq_or_lt_of_le hj1 with rfl | hj
      · exact hfa
      · exact hi4 j hj hj2

theorem firstSome_posList_of_least {a n i : Nat} {f : Nat → Option β} {b : β}
    (h1 : a ≤ i) (h2 : i < a + n) (h3 : f i = some b)
    (h4 : ∀ j, a ≤ j → j < i → f j = none) :
    firstSome (posList a n) f = some b := by
  induction n generalizing a with
  | zero => omega
  | succ m ih =>
    rw [posList]
    rcases Nat.eq_or_lt_of_le h1 with rfl | hlt
    · exact firstSome_cons_some h3
    · rw [firstSome_cons_none (h4 a (le_refl a) hlt)]
      exact ih (by omega) (by omega) (fun j hj1 hj2 => h4 j (by omega) hj2)

theorem mem_catLists {x : α} {ls : List (List α)} :
    x ∈ catLists ls ↔ ∃ l ∈ ls, x ∈ l := by
  induction ls with
  | nil => simp [catLists]
  | cons l t ih =>
    simp only [catLists, List.mem_append, ih, List.mem_cons]
    constructor
    · rintro (hx | ⟨l1, hl1, hx⟩)
      · exact ⟨l, Or.inl rfl, hx⟩
      · exact ⟨l1, Or.inr hl1, hx⟩
    · rintro ⟨l1, rfl | hl1, hx⟩
      · exact Or.inl hx
      · exact Or.inr ⟨l1, hl1, hx⟩

theorem catLists_map_nil {l : List α} {f : α → List β}
    (h : ∀ x ∈ l, f x = []) : catLists (l.map f) = [] := by
  induction l with
  | nil => rfl
  | cons a t ih =>
    simp only [List.map_cons, catLists, h a (List.mem_cons_self a t), List.nil_append]
    exact ih (fun x hx => h x (List.mem_cons_of_mem a hx))

theorem catLists_map_single (l : List α) (g : α → β) :
    catLists (l.map (fun x => [g x])) = l.map g := by
  induction l with
  | nil => rfl
  | cons a t ih => simp only [List.map_cons, catLists, ih, List.singleton_append]

theorem mem_descList {k i n lo : Nat} :
    k ∈ descList i n lo ↔ ∃ m, lo ≤ m ∧ m ≤ n ∧ k = i + m := by
  induction n with
  | zero =>
    simp only [descList]
    by_cases h : lo = 0
    · subst h; simp
    · rw [if_neg h]; simp; omega
  | succ m ih =>
    simp only [descList]
    by_cases h : m + 1 < lo
    · rw [if_pos h]; simp; omega
    · rw [if_neg h]
      simp only [List.mem_cons, ih]
      constructor
      · rintro (rfl | ⟨m1, hm1, hm2, rfl⟩)
        · exact ⟨m + 1, by omega, by omega, rfl⟩
        · exact ⟨m1, hm1, by omega, rfl⟩
      · rintro ⟨m1, hm1, hm2, rfl⟩
        rcases Nat.eq_or_lt_of_le hm2 with rfl | hm
        · exact Or.inl rfl
        · exact Or.inr ⟨m1, hm1, by omega, rfl⟩

theorem descList_head {i n lo : Nat} (h : lo ≤ n) :
    ∃ t, descList i n lo = (i + n) :: t := by
  cases n with
  | zero =>
    have : lo = 0 := by omega
    subst this
    exact ⟨[], rfl⟩
  | succ m =>
    rw [descList, if_neg (by omega)]
    exact ⟨descList i m lo, rfl⟩

theorem takeRun_le_length (p : Char → Bool) (l : List Char) :
    takeRun p l ≤ l.length := by
  induction l with
  | nil => simp [takeRun]
  | cons c cs ih =>
    rw [takeRun]
    by_cases h : p c = true
    · rw [if_pos h]; simpa using ih
    · rw [if_neg h]; simp

theorem takeRun_sat {p : Char → Bool} {l : List Char} {n : Nat}
    (h : n ≤ takeRun p l) : ∀ c ∈ l.take n, p c = true := by
  induction l generalizing n with
  | nil => simp
  | cons c cs ih =>
    rw [takeRun] at h
    by_cases hc : p c = true
    · rw [if_pos hc] at h
      cases n with
      | zero => simp
      | succ m =>
        intro x hx
        rcases List.mem_cons.mp (by simpa using hx) with rfl | hxm
        · exact hc
        · exact ih (by omega) x hxm
    · rw [if_neg hc] at h
      have : n = 0 := by omega
      subst this
      simp

/-! ## Characterizations of case-insensitive literal matching -/

theorem ciStarts_iff {pat l : List Char} :
    ciStarts pat l = true ↔
      ∃ t r, l = t ++ r ∧ t.length = pat.length ∧
        t.map Char.toLower = pat.map Char.toLower := by
  induction pat generalizing l with
  | nil =>
    simp only [ciStarts, true_iff]
    exact ⟨[], l, rfl, rfl, rfl⟩
  | cons p ps ih =>
    cases l with
    | nil =>
      constructor
      · intro h
        exact absurd h (by simp [ciStarts])
      · rintro ⟨t, r, h, hlen, _⟩
        have hl := congrArg List.length h
        simp at hl
        simp at hlen
        omega
    | cons c cs =>
      simp only [ciStarts, Bool.and_eq_true, ih]
      constructor
      · rintro ⟨hc, t, r, rfl, hlen, hmap⟩
        refine ⟨c :: t, r, rfl, by simpa using hlen, ?_⟩
        simp only [List.map_cons, hmap, List.cons.injEq]
        exact ⟨(ciCharEq_toLower hc).symm, trivial⟩
      · rintro ⟨t, r, h, hlen, hmap⟩
        cases t with
        | nil => simp at hlen
        | cons x xs =>
          simp only [List.cons_append, List.cons.injEq] at h
          obtain ⟨rfl, rfl⟩ := h
          simp only [List.map_cons, List.cons.injEq] at hmap
          refine ⟨by simp [ciCharEq, hmap.1], xs, r, rfl, by simpa using hlen, hmap.2⟩

theorem ciStarts_length {pat l : List Char} (h : ciStarts pat l = true) :
    pat.length ≤ l.length := by
  obtain ⟨t, r, rfl, hlen, _⟩ := ciStarts_iff.mp h
  simp [← hlen]

theorem ciSearch_iff {pat s : List Char} :
    ciSearch pat s = true ↔
      ∃ u t v, s = u ++ t ++ v ∧ t.length = pat.length ∧
        t.map Char.toLower = pat.map Char.toLower := by
  induction s with
  | nil =>
    simp only [ciSearch, ciStarts_iff]
    constructor
    · rintro ⟨t, r, h, hlen, hmap⟩
      exact ⟨[], t, r, by simpa using h, hlen, hmap⟩
    · rintro ⟨u, t, v, h, hlen, hmap⟩
      have h1 : u = [] ∧ t ++ v = [] := by
        constructor
        · cases u with
          | nil => rfl
          | cons x xs => simp at h
        · cases u with
          | nil => simpa using h.symm
          | cons x xs => simp at h
      refine ⟨t, v, ?_, hlen, hmap⟩
      simpa using h1.2.symm
  | cons c cs ih =>
    simp only [ciSearch, Bool.or_eq_true, ih, ciStarts_iff]
    constructor
    · rintro (⟨t, r, h, hlen, hmap⟩ | ⟨u, t, v, h, hlen, hmap⟩)
      · exact ⟨[], t, r, by simpa using h, hlen, hmap⟩
      · exact ⟨c :: u, t, v, by simp [h], hlen, hmap⟩
    · rintro ⟨u, t, v, h, hlen, hmap⟩
      cases u with
      | nil =>
        exact Or.inl ⟨t, v, by simpa using h, hlen, hmap⟩
      | cons x xs =>
        simp only [List.cons_append, List.cons.injEq] at h
        exact Or.inr ⟨xs, t, v, h.2, hlen, hmap⟩

theorem toLower_eq_nonletter {c d : Char} (h : c.toLower = d)
    (hd : ¬ (97 ≤ d.toNat ∧ d.toNat ≤ 122)) : c = d := by
  have ht := toLower_toNat c
  by_cases hu : 65 ≤ c.toNat ∧ c.toNat ≤ 90
  · rw [if_pos hu] at ht
    rw [h] at ht
    omega
  · rw [if_neg hu] at ht
    rw [← h]
    exact char_eq_of_toNat_eq ht.symm

/-! ## Facts about text slices -/

theorem sliceL_append {s : List Char} {a b c : Nat} (h1 : a ≤ b) (h2 : b ≤ c) :
    sliceL s a c = sliceL s a b ++ sliceL s b c := by
  unfold sliceL
  have hc : c - a = (b - a) + (c - b) := by omega
  rw [hc, List.take_add, List.drop_drop]
  have hb : a + (b - a) = b := by omega
  rw [hb]

theorem sliceL_sat {p : Char → Bool} {s : List Char} {a n : Nat}
    (h : n ≤ takeRun p (s.drop a)) : ∀ c ∈ sliceL s a (a + n), p c = true := by
  unfold sliceL
  rw [Nat.add_sub_cancel_left]
  exact takeRun_sat h

theorem mem_of_mem_sliceL {s : List Char} {a b : Nat} {c : Char}
    (h : c ∈ sliceL s a b) : c ∈ s := by
  unfold sliceL at h
  exact List.mem_of_mem_drop (List.mem_of_mem_take h)

theorem sliceL_of_drop_eq {s t r : List Char} {a : Nat}
    (h : s.drop a = t ++ r) : sliceL s a (a + t.length) = t := by
  unfold sliceL
  rw [Nat.add_sub_cancel_left, h, List.take_append_of_le_length (le_refl _),
    List.take_length]

theorem drop_sliceL_decomp {s t r : List Char} {a : Nat}
    (h : s.drop a = t ++ r) : s = s.take a ++ t ++ r := by
  conv_lhs => rw [← List.take_append_drop a s]
  rw [h, List.append_assoc]

/-! ## Membership facts for the token matchers -/

theorem mem_tokLit {lit s : List Char} {i k : Nat} :
    k ∈ tokLit lit s i ↔ ciStarts lit (s.drop i) = true ∧ k = i + lit.length := by
  unfold tokLit
  by_cases h : ciStarts lit (s.drop i) = true
  · simp [h]
  · simp [h]

theorem mem_tokCls {p : Char → Bool} {s : List Char} {i k : Nat}
    (h : k ∈ tokCls p s i) :
    ∃ c r, s.drop i = c :: r ∧ p c = true ∧ k = i + 1 := by
  unfold tokCls at h
  split at h
  · simp at h
  · rename_i c tail heq
    split at h
    · rename_i hp
      simp at h
      exact ⟨c, tail, heq, hp, h⟩
    · simp at h

theorem mem_tokPlus {p : Char → Bool} {s : List Char} {i k : Nat} :
    k ∈ tokPlus p s i ↔
      ∃ n, 1 ≤ n ∧ n ≤ takeRun p (s.drop i) ∧ k = i + n := by
  unfold tokPlus
  rw [mem_descList]

theorem mem_tokStar {p : Char → Bool} {s : List Char} {i k : Nat} :
    k ∈ tokStar p s i ↔
      ∃ n, n ≤ takeRun p (s.drop i) ∧ k = i + n := by
  unfold tokStar
  rw [mem_descList]
  constructor
  · rintro ⟨m, _, hm, rfl⟩; exact ⟨m, hm, rfl⟩
  · rintro ⟨m, hm, rfl⟩; exact ⟨m, by omega, hm, rfl⟩

theorem mem_tokRep {p : Char → Bool} {s : List Char} {i k lo hi : Nat} :
    k ∈ tokRep p lo hi s i ↔
      ∃ n, lo ≤ n ∧ n ≤ takeRun p (s.drop i) ∧ n ≤ hi ∧ k = i + n := by
  unfold tokRep
  rw [mem_descList]
  constructor
  · rintro ⟨m, h1, h2, rfl⟩
    exact ⟨m, h1, le_trans h2 (Nat.min_le_left _ _), le_trans h2 (Nat.min_le_right _ _), rfl⟩
  · rintro ⟨m, h1, h2, h3, rfl⟩
    exact ⟨m, h1, le_min h2 h3, rfl⟩

theorem runToks_nil (s : List Char) (i : Nat) : runToks [] s i = [i] := rfl

theorem runToks_cons (t : Token) (ts : List Token) (s : List Char) (i : Nat) :
    runToks (t :: ts) s i = catLists ((t s i).map (fun j => runToks ts s j)) := rfl

theorem runToks_single (t : Token) (s : List Char) (i : Nat) :
    runToks [t] s i = t s i := by
  rw [runToks_cons]
  exact catLists_map_single (t s i) id |>.trans (List.map_id _)

theorem mem_runToks_cons {t : Token} {ts : List Token} {s : List Char} {i k : Nat} :
    k ∈ runToks (t :: ts) s i ↔ ∃ j ∈ t s i, k ∈ runToks ts s j := by
  rw [runToks_cons, mem_catLists]
  constructor
  · rintro ⟨l, hl, hk⟩
    obtain ⟨j, hj, rfl⟩ := List.mem_map.mp hl
    exact ⟨j, hj, hk⟩
  · rintro ⟨j, hj, hk⟩
    exact ⟨runToks ts s j, List.mem_map.mpr ⟨j, hj, rfl⟩, hk⟩

theorem mem_runToks_nil {s : List Char} {i k : Nat} :
    k ∈ runToks [] s i ↔ k = i := by
  rw [runToks_nil]
  simp

/-! ## C1: fingerprint invariance under case and whitespace changes -/

/-- The non-whitespace characters of a text, case-folded.  Two texts differ
only in letter case and in the amount or kind of whitespace exactly when
their skeletons agree. -/
def caseWSSkeleton (t : String) : List Char :=
  (t.data.filter (fun c => !isPySpace c)).map Char.toLower

/-- The claim's equivalence: the two texts differ only in letter case and/or
whitespace (including whitespace runs inserted, removed or replaced). -/
def eqModuloCaseWS (t1 t2 : String) : Prop :=
  caseWSSkeleton t1 = caseWSSkeleton t2

instance (t1 t2 : String) : Decidable (eqModuloCaseWS t1 t2) :=
  inferInstanceAs (Decidable (caseWSSkeleton t1 = caseWSSkeleton t2))

/-- C1: the fingerprint calculator returns identical hash strings on any two
texts that differ only in letter case and/or in the amount or kind of
whitespace: the hash input is the lower-cased, whitespace-free text, so any
deterministic digest of it is invariant under case-folding and under
inserting, removing or replacing whitespace runs. -/
theorem fingerprint_invariant_case_whitespace
    (md5hex : String → String) (t1 t2 : String) (h : eqModuloCaseWS t1 t2) :
    calculate_fingerprint md5hex t1 = calculate_fingerprint md5hex t2 := by
  unfold calculate_fingerprint
  suffices hn : pyNormalize t1 = pyNormalize t2 by rw [hn]
  unfold eqModuloCaseWS caseWSSkeleton at h
  unfold pyNormalize
  rw [List.filter_map, List.filter_map]
  have hpf : ((fun c => !isPySpace c) ∘ Char.toLower) = (fun c => !isPySpace c) := by
    funext c
    simp [Function.comp, isPySpace_toLower]
  rw [hpf]
  exact h

theorem fingerprint_invariant_case_whitespace_witness :
    eqModuloCaseWS "Gas  Bill\n42" "gAS B ILL42" ∧
      calculate_fingerprint (fun s => s) "Gas  Bill\n42" =
        calculate_fingerprint (fun s => s) "gAS B ILL42" :=
  have h : eqModuloCaseWS "Gas  Bill\n42" "gAS B ILL42" := by decide
  ⟨h, fingerprint_invariant_case_whitespace (fun s => s) "Gas  Bill\n42" "gAS B ILL42" h⟩

/-! ## C3: the shape of extracted amounts -/

/-- A digit string with exactly two decimal places: nonempty digits, a dot,
exactly two digits. -/
def twoDecShape (l : List Char) : Prop :=
  ∃ a b, l = a ++ '.' :: b ∧ a ≠ [] ∧ (∀ c ∈ a, isDigitC c = true) ∧
    b.length = 2 ∧ (∀ c ∈ b, isDigitC c = true)

theorem capTwoDec_shape {s : List Char} {j k : Nat}
    (h : k ∈ runToks capTwoDec s j) : twoDecShape (sliceL s j k) := by
  unfold capTwoDec at h
  rw [mem_runToks_cons] at h
  obtain ⟨j1, hj1, h⟩ := h
  rw [mem_runToks_cons] at h
  obtain ⟨j2, hj2, h⟩ := h
  rw [runToks_single] at h
  rw [mem_tokPlus] at hj1
  obtain ⟨n1, hn1a, hn1b, rfl⟩ := hj1
  rw [mem_tokLit] at hj2
  obtain ⟨hdot, rfl⟩ := hj2
  rw [mem_tokRep] at h
  obtain ⟨n3, hn3a, hn3b, hn3c, rfl⟩ := h
  have hn3 : n3 = 2 := by omega
  subst hn3
  simp only [List.length_singleton] at hn3b ⊢
  -- the dot
  obtain ⟨t, r, hdrop, htlen, htmap⟩ := ciStarts_iff.mp hdot
  have ht : t = ['.'] := by
    cases t with
    | nil => simp at htlen
    | cons c cs =>
      cases cs with
      | nil =>
        simp only [List.map_cons, List.map_nil, List.cons.injEq] at htmap
        have hc : c = '.' :=
          toLower_eq_nonletter (by simpa using htmap.1) (by decide)
        rw [hc]
      | cons d ds => simp at htlen
  subst ht
  have hmid : sliceL s (j + n1) (j + n1 + 1) = ['.'] := by
    have := sliceL_of_drop_eq hdrop
    simpa using this
  -- lengths
  have hlen1 : (sliceL s j (j + n1)).length = n1 := by
    unfold sliceL
    rw [Nat.add_sub_cancel_left, List.length_take, List.length_drop]
    have := takeRun_le_length isDigitC (s.drop j)
    rw [List.length_drop] at this
    omega
  have hlen3 : (sliceL s (j + n1 + 1) (j + n1 + 1 + 2)).length = 2 := by
    unfold sliceL
    rw [Nat.add_sub_cancel_left, List.length_take, List.length_drop]
    have := takeRun_le_length isDigitC (s.drop (j + n1 + 1))
    rw [List.length_drop] at this
    omega
  refine ⟨sliceL s j (j + n1), sliceL s (j + n1 + 1) (j + n1 + 1 + 2), ?_, ?_, ?_, hlen3, ?_⟩
  · rw [@sliceL_append s j (j + n1) (j + n1 + 1 + 2) (by omega) (by omega),
      @sliceL_append s (j + n1) (j + n1 + 1) (j + n1 + 1 + 2) (by omega) (by omega),
      hmid]
    simp
  · intro hnil
    rw [hnil] at hlen1
    simp at hlen1
    omega
  · exact sliceL_sat hn1b
  · exact sliceL_sat hn3b

theorem extract_amount_sliceL {text : String} {str : String}
    (h : extract_amount text = some str) :
    ∃ j k, str.data = sliceL text.data j k ∧ k ∈ runToks capTwoDec text.data j := by
  unfold extract_amount at h
  obtain ⟨p, hp, hg⟩ := exists_of_firstSome h
  unfold firstGroupStr at hg
  obtain ⟨jk, hs, hstr⟩ := Option.map_eq_some'.mp hg
  obtain ⟨i, _, hm⟩ := exists_of_firstSome hs
  unfold matchAt at hm
  obtain ⟨j, _, hinner⟩ := exists_of_firstSome hm
  obtain ⟨k, hk, hite⟩ := exists_of_firstSome hinner
  have hjk : jk = (j, k) := by
    by_cases hpost : runToks p.post text.data k = []
    · rw [if_pos hpost] at hite; exact absurd hite (by simp)
    · rw [if_neg hpost] at hite; exact (Option.some.injEq _ _ ▸ hite).symm
  subst hjk
  have hdata : str.data = sliceL text.data j k := by
    rw [← hstr]
  refine ⟨j, k, hdata, ?_⟩
  have hlist : p ∈ amount_patterns := hp
  simp only [amount_patterns, List.mem_cons, List.not_mem_nil, or_false] at hlist
  rcases hlist with rfl | rfl | rfl | rfl | rfl | rfl | rfl <;> exact hk

/-- C3 (counterexample): on the text `£123.456` the amount extractor does
not return `none`; it returns the truncated two-decimal capture `123.45`. -/
theorem amount_three_decimal_truncated :
    extract_amount "£123.456" = some "123.45" := by
  decide

/-- C3 (amended): every value the amount extractor returns has the
two-decimal-place shape (nonempty digits, a dot, exactly two digits) - in
particular an integer amount alone can never produce a value, since every
pattern requires a literal dot in the text; but a three-decimal number such
as `£123.456` yields the truncated capture `123.45` rather than no amount. -/
theorem amount_two_decimal_shape :
    (∀ text str : String, extract_amount text = some str → twoDecShape str.data) ∧
    (∀ text : String, (∀ c ∈ text.data, c ≠ '.') → extract_amount text = none) := by
  constructor
  · intro text str h
    obtain ⟨j, k, hdata, hcap⟩ := extract_amount_sliceL h
    rw [hdata]
    exact capTwoDec_shape hcap
  · intro text hnodot
    cases heq : extract_amount text with
    | none => rfl
    | some str =>
      exfalso
      obtain ⟨j, k, hdata, hcap⟩ := extract_amount_sliceL heq
      obtain ⟨a, b, hshape, -, -, -, -⟩ := capTwoDec_shape hcap
      have hdotmem : '.' ∈ sliceL text.data j k := by
        rw [hshape]
        simp
      exact hnodot '.' (mem_of_mem_sliceL hdotmem) rfl

theorem amount_two_decimal_shape_witness :
    twoDecShape (String.data "7.25") ∧ extract_amount "£123" = none :=
  ⟨amount_two_decimal_shape.1 "Total: £7.25" "7.25" (by decide),
    amount_two_decimal_shape.2 "£123" (by decide)⟩

/-! ## C4: priority ordering of the amount patterns -/

theorem firstSome_eq_of_first_matches {l : List α} {f : α → Option β} {i : Nat}
    {p : α} {b : β} (hget : l.get? i = some p)
    (hpre : (l.take i).all (fun q => (f q).isNone) = true)
    (hp : f p = some b) : firstSome l f = some b := by
  induction l generalizing i with
  | nil => simp at hget
  | cons a t ih =>
    cases i with
    | zero =>
      simp only [List.get?] at hget
      cases hget
      exact firstSome_cons_some hp
    | succ m =>
      simp only [List.get?] at hget
      rw [List.take_succ_cons, List.all_cons, Bool.and_eq_true] at hpre
      have hfa : f a = none := Option.isNone_iff_eq_none.mp hpre.1
      rw [firstSome_cons_none hfa]
      exact ih hget hpre.2

/-- C4: on any text, the amount extractor returns the leftmost match of the
earliest-listed pattern that matches anywhere: if pattern `i` of the ordered
list matches while every earlier pattern matches nowhere, the result is
exactly the capture of pattern `i`'s match at the least matching start
position; later patterns and later occurrences are never consulted. -/
theorem amount_priority_first_match (text : String) (i : Nat) (p : Pat1)
    (hget : amount_patterns.get? i = some p)
    (hpre : (amount_patterns.take i).all (fun q => (firstGroupStr q text).isNone) = true)
    (j k : Nat) (hs : searchFirst p text.data = some (j, k)) :
    extract_amount text = some ⟨sliceL text.data j k⟩ ∧
      ∃ i0, matchAt p text.data i0 = some (j, k) ∧
        ∀ i1, i1 < i0 → matchAt p text.data i1 = none := by
  constructor
  · unfold extract_amount
    apply firstSome_eq_of_first_matches hget hpre
    unfold firstGroupStr
    rw [hs]
    rfl
  · unfold searchFirst at hs
    obtain ⟨i0, -, -, h3, h4⟩ := firstSome_posList_least hs
    exact ⟨i0, h3, fun i1 h => h4 i1 (by omega) h⟩

theorem amount_priority_first_match_witness :
    extract_amount "Total: 5.00" = some ⟨sliceL "Total: 5.00".data 7 11⟩ ∧
      ∃ i0, matchAt amountP4 "Total: 5.00".data i0 = some (7, 11) ∧
        ∀ i1, i1 < i0 → matchAt amountP4 "Total: 5.00".data i1 = none :=
  amount_priority_first_match "Total: 5.00" 3 amountP4 rfl (by decide) 7 11 (by decide)

/-! ## C5: the bill-type classification policy -/

/-- The claim-side containment: the case-folded text contains the given
lower-case word as a contiguous substring. -/
def containsLowered (pat : List Char) (s : List Char) : Prop :=
  ∃ u v, s.map Char.toLower = u ++ pat ++ v

theorem map_eq_append_decomp {f : α → β} {l : List α} {xs ys : List β}
    (h : l.map f = xs ++ ys) :
    ∃ l1 l2, l = l1 ++ l2 ∧ l1.map f = xs ∧ l2.map f = ys := by
  induction l generalizing xs with
  | nil =>
    rw [List.map_nil] at h
    obtain ⟨h1, h2⟩ := List.append_eq_nil.mp h.symm
    exact ⟨[], [], rfl, by simp [h1], by simp [h2]⟩
  | cons a t ih =>
    cases xs with
    | nil => exact ⟨[], a :: t, rfl, rfl, by simpa using h⟩
    | cons x xt =>
      simp only [List.map_cons, List.cons_append, List.cons.injEq] at h
      obtain ⟨rfl, h2⟩ := h
      obtain ⟨l1, l2, rfl, hm1, hm2⟩ := ih h2
      exact ⟨a :: l1, l2, rfl, by simp [hm1], hm2⟩

theorem ciSearch_iff_containsLowered {pat s : List Char}
    (hpat : pat.map Char.toLower = pat) :
    ciSearch pat s = true ↔ containsLowered pat s := by
  rw [ciSearch_iff]
  constructor
  · rintro ⟨u, t, v, rfl, hlen, hmap⟩
    refine ⟨u.map Char.toLower, v.map Char.toLower, ?_⟩
    simp only [List.map_append]
    rw [hmap, hpat]
  · rintro ⟨u, v, h⟩
    obtain ⟨l12, l3, rfl, hm12, hm3⟩ := map_eq_append_decomp h
    obtain ⟨l1, t, rfl, hm1, hmt⟩ := map_eq_append_decomp hm12
    refine ⟨l1, t, l3, by simp, ?_, ?_⟩
    · have := congrArg List.length hmt
      simpa using this
    · rw [hmt, hpat]

/-- C5: the type classifier returns `Gas` whenever the case-folded text
contains `gas` - even when it also contains `electric` / `electricity`;
it returns `Electric` when the text contains `electric` (in particular when
it contains `electricity`) but not `gas`; and `Unknown` otherwise.  It is
total: it always returns one of these three strings and never fails. -/
theorem bill_type_policy (text : String) :
    (containsLowered "gas".data text.data → extract_bill_type text = "Gas") ∧
    (¬ containsLowered "gas".data text.data →
      containsLowered "electric".data text.data →
        extract_bill_type text = "Electric") ∧
    (¬ containsLowered "gas".data text.data →
      ¬ containsLowered "electric".data text.data →
        extract_bill_type text = "Unknown") := by
  have hgas := @ciSearch_iff_containsLowered "gas".data text.data (by decide)
  have hel := @ciSearch_iff_containsLowered "electric".data text.data (by decide)
  have helity : ciSearch "electricity".data text.data = true →
      containsLowered "electric".data text.data := by
    intro h
    obtain ⟨u, v, huv⟩ := (ciSearch_iff_containsLowered (by decide)).mp h
    refine ⟨u, "ity".data ++ v, ?_⟩
    rw [huv]
    have hsplit : ("electricity".data : List Char) = "electric".data ++ "ity".data := by
      decide
    rw [hsplit]
    simp
  refine ⟨?_, ?_, ?_⟩
  · intro h
    unfold extract_bill_type
    rw [if_pos (hgas.mpr h)]
  · intro hng he
    unfold extract_bill_type
    rw [if_neg (fun hc => hng (hgas.mp hc)),
      if_pos (Bool.or_eq_true _ _ ▸ Or.inl (hel.mpr he))]
  · intro hng hne
    unfold extract_bill_type
    rw [if_neg (fun hc => hng (hgas.mp hc)), if_neg]
    intro hc
    rcases Bool.or_eq_true _ _ ▸ hc with h1 | h2
    · exact hne (hel.mp h1)
    · exact hne (helity h2)

theorem bill_type_policy_witness :
    extract_bill_type "Gas & Electric tariff" = "Gas" ∧
      extract_bill_type "My ELECTRICITY bill" = "Electric" ∧
      extract_bill_type "water only" = "Unknown" := by
  refine ⟨(bill_type_policy _).1 ⟨"".data, " & electric tariff".data, by decide⟩, ?_, ?_⟩
  · refine (bill_type_policy _).2.1 ?_ ⟨"my ".data, "ity bill".data, by decide⟩
    intro h
    exact absurd ((ciSearch_iff_containsLowered (by decide)).mpr h) (by decide)
  · refine (bill_type_policy _).2.2 ?_ ?_
    · intro h
      exact absurd ((ciSearch_iff_containsLowered (by decide)).mpr h) (by decide)
    · intro h
      exact absurd ((ciSearch_iff_containsLowered (by decide)).mpr h) (by decide)

/-! ## C6: per-document failure isolation in the batch processor -/

/-- C6: the batch processor appends no record for a failing document,
continues with all subsequent documents, never aborts the whole batch, and
returns exactly the records of the successfully processed documents in
input-enumeration order - its output is the in-order record list of the
successful (filename, text) pairs, and its output filenames are exactly the
successful filenames in enumeration order. -/
theorem process_isolates_failures (md5hex : String → String)
    (docs : List (String × Except String String)) :
    process_bill_images md5hex docs =
      docs.filterMap (fun d =>
        match d.2 with
        | Except.ok text => some (buildRecord md5hex d.1 text)
        | Except.error _ => none) ∧
    (process_bill_images md5hex docs).map (fun r => r.filename) =
      docs.filterMap (fun d =>
        match d.2 with
        | Except.ok _ => some d.1
        | Except.error _ => none) := by
  induction docs with
  | nil => exact ⟨rfl, rfl⟩
  | cons d rest ih =>
    obtain ⟨fn, res⟩ := d
    cases res with
    | ok text =>
      simp only [process_bill_images, List.filterMap_cons]
      refine ⟨by rw [ih.1], ?_⟩
      simp only [List.map_cons]
      rw [ih.2]
      rfl
    | error e =>
      simp only [process_bill_images, List.filterMap_cons]
      exact ih

/-! ## C2, C7, C9: the duplicate-detection passes -/

theorem mem_distinctsAux [DecidableEq α] {seen l : List α} {x : α} :
    x ∈ distinctsAux seen l ↔ x ∈ l ∧ x ∉ seen := by
  induction l generalizing seen with
  | nil => simp [distinctsAux]
  | cons a rest ih =>
    by_cases ha : a ∈ seen
    · rw [distinctsAux, if_pos ha, ih]
      constructor
      · rintro ⟨hx, hns⟩
        exact ⟨List.mem_cons_of_mem a hx, hns⟩
      · rintro ⟨hx, hns⟩
        rcases List.mem_cons.mp hx with rfl | hm
        · exact absurd ha hns
        · exact ⟨hm, hns⟩
    · rw [distinctsAux, if_neg ha]
      simp only [List.mem_cons, ih, not_or]
      constructor
      · rintro (rfl | ⟨hx, hxa, hns⟩)
        · exact ⟨Or.inl rfl, ha⟩
        · exact ⟨Or.inr hx, hns⟩
      · rintro ⟨rfl | hx, hns⟩
        · exact Or.inl rfl
        · by_cases hxa : x = a
          · exact Or.inl hxa
          · exact Or.inr ⟨hx, hxa, hns⟩

theorem mem_distincts [DecidableEq α] {l : List α} {x : α} :
    x ∈ distincts l ↔ x ∈ l := by
  unfold distincts
  rw [mem_distinctsAux]
  simp

theorem nodup_distinctsAux [DecidableEq α] (seen l : List α) :
    (distinctsAux seen l).Nodup := by
  induction l generalizing seen with
  | nil => simp [distinctsAux]
  | cons a rest ih =>
    by_cases ha : a ∈ seen
    · rw [distinctsAux, if_pos ha]
      exact ih seen
    · rw [distinctsAux, if_neg ha]
      refine List.nodup_cons.mpr ⟨?_, ih (a :: seen)⟩
      intro hmem
      exact (mem_distinctsAux.mp hmem).2 (List.mem_cons_self a seen)

theorem nodup_distincts [DecidableEq α] (l : List α) : (distincts l).Nodup :=
  nodup_distinctsAux [] l

theorem one_lt_length_of_two_mem {l : List α} {a b : α}
    (ha : a ∈ l) (hb : b ∈ l) (hab : a ≠ b) : 1 < l.length := by
  cases l with
  | nil => simp at ha
  | cons x t =>
    cases t with
    | nil =>
      simp at ha hb
      exact absurd (ha.trans hb.symm) hab
    | cons y u =>
      simp only [List.length_cons]
      omega

theorem exists_two_of_distincts [DecidableEq α] {l : List α}
    (h : 1 < (distincts l).length) : ∃ a ∈ l, ∃ b ∈ l, a ≠ b := by
  rcases hd : distincts l with - | ⟨x, - | ⟨y, t⟩⟩
  · rw [hd] at h
    simp at h
  · rw [hd] at h
    simp at h
  · have hnd := nodup_distincts l
    rw [hd] at hnd
    have hxy : x ≠ y := by
      rcases List.nodup_cons.mp hnd with ⟨hx, -⟩
      intro hxyeq
      exact hx (hxyeq ▸ List.mem_cons_self y t)
    have hx : x ∈ l := mem_distincts.mp (hd ▸ List.mem_cons_self x (y :: t))
    have hy : y ∈ l :=
      mem_distincts.mp (hd ▸ List.mem_cons_of_mem x (List.mem_cons_self y t))
    exact ⟨x, hx, y, hy, hxy⟩

theorem one_lt_distincts_of_two [DecidableEq α] {l : List α} {a b : α}
    (ha : a ∈ l) (hb : b ∈ l) (hab : a ≠ b) : 1 < (distincts l).length :=
  one_lt_length_of_two_mem (mem_distincts.mpr ha) (mem_distincts.mpr hb) hab

theorem semKey_fields {r : BillRecord} {d a t : String}
    (h : semKey r = some (d, a, t)) :
    r.date = some d ∧ r.amount = some a ∧ r.billType = some t := by
  unfold semKey at h
  split at h
  · rename_i d0 a0 t0 hd ha ht
    simp only [Option.some.injEq, Prod.mk.injEq] at h
    obtain ⟨rfl, rfl, rfl⟩ := h
    exact ⟨hd, ha, ht⟩
  · exact absurd h (by simp)

theorem semKey_of_fields {r : BillRecord} {d a t : String}
    (hd : r.date = some d) (ha : r.amount = some a) (ht : r.billType = some t) :
    semKey r = some (d, a, t) := by
  unfold semKey
  rw [hd, ha, ht]

theorem sameDAT_mem_char {data : List BillRecord} {files : List String}
    {d a t : String}
    (h : DupGroup.sameDateAmountType files d a t ∈ identify_duplicates data) :
    files = (data.filter (fun r => semKey r == some (d, a, t))).map
      (fun r => r.filename) ∧
    1 < (data.filter (fun r => semKey r == some (d, a, t))).length ∧
    1 < (distincts ((data.filter (fun r => semKey r == some (d, a, t))).map
      (fun r => r.fingerprint))).length := by
  unfold identify_duplicates at h
  rcases List.mem_append.mp h with hex | hsem
  · exfalso
    unfold exactGroups at hex
    obtain ⟨f, -, heq⟩ := List.mem_map.mp hex
    exact DupGroup.noConfusion heq
  · unfold semanticGroups at hsem
    obtain ⟨k, -, hsome⟩ := List.mem_filterMap.mp hsem
    obtain ⟨d0, a0, t0⟩ := k
    dsimp only at hsome
    by_cases hcond :
        1 < (data.filter (fun r => semKey r == some (d0, a0, t0))).length ∧
        1 < (distincts ((data.filter (fun r => semKey r == some (d0, a0, t0))).map
          (fun r => r.fingerprint))).length
    · rw [if_pos hcond] at hsome
      simp only [Option.some.injEq, DupGroup.sameDateAmountType.injEq] at hsome
      obtain ⟨hfiles, rfl, rfl, rfl⟩ := hsome
      exact ⟨hfiles.symm, hcond.1, hcond.2⟩
    · rw [if_neg hcond] at hsome
      exact absurd hsome (by simp)

/-- C2: every SameDateAmountType group that the duplicate detector emits has
at least two members; every member file names a record whose (Date, Amount,
Type) triple is exactly the group's shared triple; and the matching records
carry at least two distinct fingerprint values - so records sharing the
triple but all having one common fingerprint are never reported under this
match type. -/
theorem semantic_groups_sound (data : List BillRecord) (files : List String)
    (d a t : String)
    (h : DupGroup.sameDateAmountType files d a t ∈ identify_duplicates data) :
    2 ≤ files.length ∧
    (∀ f ∈ files, ∃ r ∈ data, r.filename = f ∧ semKey r = some (d, a, t)) ∧
    (∃ r1 ∈ data, ∃ r2 ∈ data, semKey r1 = some (d, a, t) ∧
      semKey r2 = some (d, a, t) ∧ r1.fingerprint ≠ r2.fingerprint) := by
  obtain ⟨hfiles, hlen, hfp⟩ := sameDAT_mem_char h
  refine ⟨?_, ?_, ?_⟩
  · rw [hfiles, List.length_map]
    omega
  · intro f hf
    rw [hfiles] at hf
    obtain ⟨r, hr, rfl⟩ := List.mem_map.mp hf
    obtain ⟨hrd, hrs⟩ := List.mem_filter.mp hr
    exact ⟨r, hrd, rfl, by simpa using hrs⟩
  · obtain ⟨x, hx, y, hy, hxy⟩ := exists_two_of_distincts hfp
    obtain ⟨r1, hr1, rfl⟩ := List.mem_map.mp hx
    obtain ⟨r2, hr2, rfl⟩ := List.mem_map.mp hy
    obtain ⟨hr1d, hr1s⟩ := List.mem_filter.mp hr1
    obtain ⟨hr2d, hr2s⟩ := List.mem_filter.mp hr2
    exact ⟨r1, hr1d, r2, hr2d, by simpa using hr1s, by simpa using hr2s, hxy⟩

/-- A concrete record for the duplicate-detection witnesses. -/
def recA : BillRecord :=
  { filename := "a.jpg", date := some "12 May 2025", tariff := none,
    startDate := none, endDate := none, amount := some "50.00",
    billType := some "Gas", accountNumber := none, meterNumber := none,
    address := none, fingerprint := "f1" }

/-- A record sharing recA's (Date, Amount, Type) triple with another
fingerprint. -/
def recB : BillRecord :=
  { filename := "b.jpg", date := some "12 May 2025", tariff := none,
    startDate := none, endDate := none, amount := some "50.00",
    billType := some "Gas", accountNumber := none, meterNumber := none,
    address := none, fingerprint := "f2" }

/-- A record with an absent Date. -/
def recC : BillRecord :=
  { filename := "c.jpg", date := none, tariff := none,
    startDate := none, endDate := none, amount := some "50.00",
    billType := some "Gas", accountNumber := none, meterNumber := none,
    address := none, fingerprint := "f3" }

theorem semantic_groups_sound_witness :
    (DupGroup.sameDateAmountType ["a.jpg", "b.jpg"] "12 May 2025" "50.00" "Gas" ∈
      identify_duplicates [recA, recB]) ∧
    (2 ≤ (["a.jpg", "b.jpg"] : List String).length ∧
      (∀ f ∈ (["a.jpg", "b.jpg"] : List String), ∃ r ∈ [recA, recB],
        r.filename = f ∧ semKey r = some ("12 May 2025", "50.00", "Gas")) ∧
      (∃ r1 ∈ [recA, recB], ∃ r2 ∈ [recA, recB],
        semKey r1 = some ("12 May 2025", "50.00", "Gas") ∧
        semKey r2 = some ("12 May 2025", "50.00", "Gas") ∧
        r1.fingerprint ≠ r2.fingerprint)) :=
  have h : DupGroup.sameDateAmountType ["a.jpg", "b.jpg"] "12 May 2025" "50.00" "Gas" ∈
      identify_duplicates [recA, recB] := by decide
  ⟨h, semantic_groups_sound [recA, recB] ["a.jpg", "b.jpg"] "12 May 2025" "50.00" "Gas" h⟩

/-- C7: a record with an absent Date, Amount or Type never appears in a
SameDateAmountType group: every member file of such a group names a record
with all three key fields present, and (when filenames are unique, as the
data model assumes) a record with an absent key field is never listed. -/
theorem semantic_groups_require_keys (data : List BillRecord)
    (files : List String) (d a t : String)
    (h : DupGroup.sameDateAmountType files d a t ∈ identify_duplicates data) :
    (∀ f ∈ files, ∃ r ∈ data, r.filename = f ∧
      r.date.isSome = true ∧ r.amount.isSome = true ∧ r.billType.isSome = true) ∧
    ((data.map (fun r => r.filename)).Nodup →
      ∀ r ∈ data, (r.date = none ∨ r.amount = none ∨ r.billType = none) →
        r.filename ∉ files) := by
  obtain ⟨hfiles, -, -⟩ := sameDAT_mem_char h
  constructor
  · intro f hf
    rw [hfiles] at hf
    obtain ⟨r, hr, rfl⟩ := List.mem_map.mp hf
    obtain ⟨hrd, hrs⟩ := List.mem_filter.mp hr
    obtain ⟨h1, h2, h3⟩ := semKey_fields (by simpa using hrs)
    exact ⟨r, hrd, rfl, by simp [h1], by simp [h2], by simp [h3]⟩
  · intro hnd r hr habs hmem
    rw [hfiles] at hmem
    obtain ⟨r2, hr2, hfn⟩ := List.mem_map.mp hmem
    obtain ⟨hr2d, hr2s⟩ := List.mem_filter.mp hr2
    obtain ⟨h1, h2, h3⟩ := semKey_fields (by simpa using hr2s)
    have heq : r2 = r := List.inj_on_of_nodup_map hnd hr2d hr hfn
    subst heq
    rcases habs with hh | hh | hh
    · rw [h1] at hh
      exact Option.noConfusion hh
    · rw [h2] at hh
      exact Option.noConfusion hh
    · rw [h3] at hh
      exact Option.noConfusion hh

theorem semantic_groups_require_keys_witness :
    (DupGroup.sameDateAmountType ["a.jpg", "b.jpg"] "12 May 2025" "50.00" "Gas" ∈
      identify_duplicates [recA, recB, recC]) ∧
    ((∀ f ∈ (["a.jpg", "b.jpg"] : List String), ∃ r ∈ [recA, recB, recC],
        r.filename = f ∧ r.date.isSome = true ∧ r.amount.isSome = true ∧
        r.billType.isSome = true) ∧
      (([recA, recB, recC].map (fun r => r.filename)).Nodup →
        ∀ r ∈ [recA, recB, recC],
          (r.date = none ∨ r.amount = none ∨ r.billType = none) →
            r.filename ∉ (["a.jpg", "b.jpg"] : List String))) :=
  have h : DupGroup.sameDateAmountType ["a.jpg", "b.jpg"] "12 May 2025" "50.00" "Gas" ∈
      identify_duplicates [recA, recB, recC] := by decide
  ⟨h, semantic_groups_require_keys [recA, recB, recC] ["a.jpg", "b.jpg"]
    "12 May 2025" "50.00" "Gas" h⟩

/-- C9: `Unknown` is a valid semantic-key value.  Whenever a batch contains
two records with the same present Date and Amount, both classified
`Unknown`, and distinct fingerprints, the duplicate detector emits a
SameDateAmountType group whose shared type is `Unknown` and whose files
include both records - `Unknown` is never excluded from the semantic pass
the way an absent field is. -/
theorem unknown_type_participates (data : List BillRecord) (r1 r2 : BillRecord)
    (d a : String) (h1 : r1 ∈ data) (h2 : r2 ∈ data)
    (hd1 : r1.date = some d) (ha1 : r1.amount = some a)
    (ht1 : r1.billType = some "Unknown")
    (hd2 : r2.date = some d) (ha2 : r2.amount = some a)
    (ht2 : r2.billType = some "Unknown")
    (hfp : r1.fingerprint ≠ r2.fingerprint) :
    ∃ files,
      DupGroup.sameDateAmountType files d a "Unknown" ∈ identify_duplicates data ∧
      r1.filename ∈ files ∧ r2.filename ∈ files := by
  have hk1 : semKey r1 = some (d, a, "Unknown") := semKey_of_fields hd1 ha1 ht1
  have hk2 : semKey r2 = some (d, a, "Unknown") := semKey_of_fields hd2 ha2 ht2
  have hr12 : r1 ≠ r2 := fun he => hfp (he ▸ rfl)
  have hr1g : r1 ∈ data.filter (fun r => semKey r == some (d, a, "Unknown")) :=
    List.mem_filter.mpr ⟨h1, by simp [hk1]⟩
  have hr2g : r2 ∈ data.filter (fun r => semKey r == some (d, a, "Unknown")) :=
    List.mem_filter.mpr ⟨h2, by simp [hk2]⟩
  have hglen : 1 < (data.filter (fun r => semKey r == some (d, a, "Unknown"))).length :=
    one_lt_length_of_two_mem hr1g hr2g hr12
  have hfplen : 1 < (distincts ((data.filter
      (fun r => semKey r == some (d, a, "Unknown"))).map
      (fun r => r.fingerprint))).length :=
    one_lt_distincts_of_two (List.mem_map.mpr ⟨r1, hr1g, rfl⟩)
      (List.mem_map.mpr ⟨r2, hr2g, rfl⟩) hfp
  refine ⟨(data.filter (fun r => semKey r == some (d, a, "Unknown"))).map
      (fun r => r.filename), ?_,
    List.mem_map.mpr ⟨r1, hr1g, rfl⟩, List.mem_map.mpr ⟨r2, hr2g, rfl⟩⟩
  unfold identify_duplicates
  apply List.mem_append.mpr
  right
  unfold semanticGroups
  apply List.mem_filterMap.mpr
  refine ⟨(d, a, "Unknown"), ?_, ?_⟩
  · exact mem_distincts.mpr (List.mem_filterMap.mpr ⟨r1, h1, hk1⟩)
  · dsimp only
    rw [if_pos ⟨hglen, hfplen⟩]

/-- A first record classified Unknown, for the C9 witness. -/
def recU1 : BillRecord :=
  { filename := "u1.jpg", date := some "1 Jan 2025", tariff := none,
    startDate := none, endDate := none, amount := some "9.99",
    billType := some "Unknown", accountNumber := none, meterNumber := none,
    address := none, fingerprint := "g1" }

/-- A second record classified Unknown with another fingerprint. -/
def recU2 : BillRecord :=
  { filename := "u2.jpg", date := some "1 Jan 2025", tariff := none,
    startDate := none, endDate := none, amount := some "9.99",
    billType := some "Unknown", accountNumber := none, meterNumber := none,
    address := none, fingerprint := "g2" }

theorem unknown_type_participates_witness :
    ∃ files,
      DupGroup.sameDateAmountType files "1 Jan 2025" "9.99" "Unknown" ∈
        identify_duplicates [recU1, recU2] ∧
      recU1.filename ∈ files ∧ recU2.filename ∈ files :=
  unknown_type_participates [recU1, recU2] recU1 recU2 "1 Jan 2025" "9.99"
    (by decide) (by decide) rfl rfl rfl rfl rfl rfl (by decide)

/-! ## C10: tariff names are returned as spelled in the document -/

theorem dropWhile_eq_self {p : Char → Bool} {l : List Char}
    (h : ∀ c ∈ l.head?, p c = false) : l.dropWhile p = l := by
  cases l with
  | nil => rfl
  | cons c cs =>
    rw [List.dropWhile_cons, if_neg]
    simp only [List.head?_cons, Option.mem_def, Option.some.injEq] at h
    rw [h c rfl]
    simp

theorem stripWS_eq_self {l : List Char} (h1 : l.dropWhile isPySpace = l)
    (h2 : l.reverse.dropWhile isPySpace = l.reverse) : stripWS l = l := by
  unfold stripWS
  rw [h1, h2, List.reverse_reverse]

theorem stripWS_eq_of_lowered {t0 L : List Char} (hm : t0.map Char.toLower = L)
    (hL1 : ∀ c ∈ L.head?, isPySpace c = false)
    (hL2 : ∀ c ∈ L.reverse.head?, isPySpace c = false) : stripWS t0 = t0 := by
  apply stripWS_eq_self
  · apply dropWhile_eq_self
    intro c hc
    have hcl : Char.toLower c ∈ L.head? := by
      rw [← hm, List.head?_map]
      simp only [Option.mem_def] at hc
      rw [hc]
      rfl
    rw [← isPySpace_toLower c]
    exact hL1 (Char.toLower c) hcl
  · apply dropWhile_eq_self
    intro c hc
    have hcl : Char.toLower c ∈ L.reverse.head? := by
      rw [← hm, ← List.map_reverse, List.head?_map]
      simp only [Option.mem_def] at hc
      rw [hc]
      rfl
    rw [← isPySpace_toLower c]
    exact hL2 (Char.toLower c) hcl

/-- C10: whenever the tariff extractor succeeds, the returned tariff string
is a verbatim contiguous substring of the input text that case-insensitively
equals one of the known tariff names - the document's own spelling is
preserved, not the canonical vocabulary entry. -/
theorem tariff_spelling_from_text (text t s e : String)
    (h : extract_tariff_and_billing_period text = (some t, some s, some e)) :
    ∃ nm ∈ tariff_names, t.data.map Char.toLower = nm.data.map Char.toLower ∧
      ∃ u v, text.data = u ++ t.data ++ v := by
  unfold extract_tariff_and_billing_period at h
  cases hfs : firstSome tariff_names (fun nm => searchTariff nm text.data) with
  | none =>
    rw [hfs] at h
    simp at h
  | some r =>
    rw [hfs] at h
    obtain ⟨i, a, b, c, d, e2⟩ := r
    simp only [Prod.mk.injEq, Option.some.injEq] at h
    obtain ⟨ht, -, -⟩ := h
    obtain ⟨nm, hnm, hsearch⟩ := exists_of_firstSome hfs
    unfold searchTariff at hsearch
    obtain ⟨i0, -, hmap⟩ := exists_of_firstSome hsearch
    obtain ⟨r5, hmatch, hr5⟩ := Option.map_eq_some'.mp hmap
    unfold matchTariffAt at hmatch
    obtain ⟨a0, ha0, h2⟩ := exists_of_firstSome hmatch
    obtain ⟨b0, -, h3⟩ := exists_of_firstSome h2
    obtain ⟨c0, -, h4⟩ := exists_of_firstSome h3
    obtain ⟨d0, -, h5⟩ := exists_of_firstSome h4
    obtain ⟨e0, -, h6⟩ := exists_of_firstSome h5
    have hr5v : r5 = (a0, b0, c0, d0, e0) := by
      by_cases hpost : runToks [tokStar isPySpace, tokLit [')']] text.data e0 = []
      · rw [if_pos hpost] at h6
        exact absurd h6 (by simp)
      · rw [if_neg hpost] at h6
        exact (Option.some.injEq _ _ ▸ h6).symm
    subst hr5v
    have hia : i0 = i ∧ a0 = a := by
      have := Prod.mk.injEq .. ▸ hr5
      simp at this
      exact ⟨this.1, this.2.1⟩
    obtain ⟨rfl, rfl⟩ := hia
    rw [runToks_single] at ha0
    rw [mem_tokLit] at ha0
    obtain ⟨hci, rfl⟩ := ha0
    obtain ⟨t0, r0, hdrop, htlen, htmap⟩ := ciStarts_iff.mp hci
    have hsl : sliceL text.data i0 (i0 + nm.data.length) = t0 := by
      rw [← htlen]
      exact sliceL_of_drop_eq hdrop
    have hstrip : stripWS t0 = t0 := by
      have hnm3 : nm ∈ ["Cosy Octopus", "Agile Octopus", "Octopus Tracker"] := hnm
      simp only [List.mem_cons, List.not_mem_nil, or_false] at hnm3
      rcases hnm3 with rfl | rfl | rfl
      · exact stripWS_eq_of_lowered htmap (by decide) (by decide)
      · exact stripWS_eq_of_lowered htmap (by decide) (by decide)
      · exact stripWS_eq_of_lowered htmap (by decide) (by decide)
    have htdata : t.data = t0 := by
      rw [← ht, hsl, hstrip]
    refine ⟨nm, hnm, ?_, text.data.take i0, r0, ?_⟩
    · rw [htdata]
      exact htmap
    · rw [htdata]
      exact drop_sliceL_decomp hdrop

theorem tariff_spelling_from_text_witness :
    extract_tariff_and_billing_period "cosy octopus (12th May 2025 - 24th May 2025)" =
      (some "cosy octopus", some "12th May 2025", some "24th May 2025") ∧
    (∃ nm ∈ tariff_names,
      ("cosy octopus" : String).data.map Char.toLower = nm.data.map Char.toLower ∧
      ∃ u v, ("cosy octopus (12th May 2025 - 24th May 2025)" : String).data =
        u ++ ("cosy octopus" : String).data ++ v) :=
  have h : extract_tariff_and_billing_period
      "cosy octopus (12th May 2025 - 24th May 2025)" =
      (some "cosy octopus", some "12th May 2025", some "24th May 2025") := by decide
  ⟨h, tariff_spelling_from_text "cosy octopus (12th May 2025 - 24th May 2025)"
    "cosy octopus" "12th May 2025" "24th May 2025" h⟩

/-! ## C8: the address extractor against its specification

`addressSpec` below restates the claim: find the (case-insensitive)
"Supply Address:" label - the word Supply, whitespace, the word Address,
an optional colon - or, failing that anywhere in the text, the plain
"Address:" label; capture the text after the label up to the literal token
"Postcode" or, failing that, the end of the text, spanning newlines; return
it with every whitespace run collapsed to a single space and with leading
and trailing whitespace trimmed. -/

/-- Position just after the label's optional colon. -/
def colonSkip (s : List Char) (q : Nat) : Nat :=
  if ciStarts [':'] (s.drop q) then q + 1 else q

/-- If the "Supply Address:" label occurs at `i`, the position right after
it (after the optional colon); otherwise `none`. -/
def labelSupplyCap (s : List Char) (i : Nat) : Option Nat :=
  if ciStarts "Supply".data (s.drop i) then
    if 1 ≤ takeRun isPySpace (s.drop (i + 6)) ∧
        ciStarts "Address".data
          (s.drop (i + 6 + takeRun isPySpace (s.drop (i + 6)))) then
      some (colonSkip s (i + 6 + takeRun isPySpace (s.drop (i + 6)) + 7))
    else none
  else none

/-- If the "Address:" label occurs at `i`, the position right after it. -/
def labelAddrCap (s : List Char) (i : Nat) : Option Nat :=
  if ciStarts "Address".data (s.drop i) then some (colonSkip s (i + 7)) else none

/-- The capture's end: the first occurrence of the literal token "Postcode"
at or after `c`, or the end of the text when there is none. -/
def pcStop (s : List Char) (c : Nat) : Nat :=
  (firstSome (posList c (s.length + 1 - c)) (fun k =>
    if ciStarts "Postcode".data (s.drop k) then some k else none)).getD s.length

/-- The returned address for a capture starting at `c`: up to the first
"Postcode" or the end, trimmed, whitespace runs collapsed. -/
def addrResult (s : List Char) (c : Nat) : String :=
  ⟨collapseWS (stripWS (sliceL s c (pcStop s c)))⟩

/-- The address-extraction behaviour exactly as the specification words it:
the first "Supply Address:" label wins; otherwise the first "Address:"
label; no label, no address. -/
def addressSpec (s : List Char) : Option String :=
  match firstSome (posList 0 (s.length + 1)) (fun i =>
      (labelSupplyCap s i).map (fun c => addrResult s c)) with
  | some r => some r
  | none =>
    firstSome (posList 0 (s.length + 1)) (fun i =>
      (labelAddrCap s i).map (fun c => addrResult s c))

/-- The Boolean stop condition of the engine's capture: "Postcode" here, or
the anchor `$` (end of text / just before a final newline). -/
def stopB (s : List Char) (k : Nat) : Bool :=
  ciStarts "Postcode".data (s.drop k) || (k = s.length || s.drop k == ['\n'])

/-- The engine's capture end from position `j`: the first stop position. -/
def engStopOpt (s : List Char) (j : Nat) : Option Nat :=
  firstSome (posList j (s.length + 1 - j)) (fun k =>
    if stopB s k = true then some k else none)

theorem firstSome_ite_map (l : List Nat) (p : Nat → Bool) (g : Nat → γ) :
    firstSome l (fun k => if p k = true then some (g k) else none) =
      (firstSome l (fun k => if p k = true then some k else none)).map g := by
  induction l with
  | nil => rfl
  | cons a t ih =>
    by_cases hp : p a = true
    · simp [firstSome, hp]
    · simp [firstSome, hp, ih]

theorem dropWhile_all {p : Char → Bool} {u : List Char}
    (h : ∀ c ∈ u, p c = true) : u.dropWhile p = [] := by
  induction u with
  | nil => rfl
  | cons c t ih =>
    rw [List.dropWhile_cons, if_pos (h c (List.mem_cons_self c t))]
    exact ih (fun x hx => h x (List.mem_cons_of_mem c hx))

theorem dropWhile_ws_append {p : Char → Bool} {u l : List Char}
    (h : ∀ c ∈ u, p c = true) :
    (u ++ l).dropWhile p = l.dropWhile p := by
  induction u with
  | nil => rfl
  | cons c t ih =>
    rw [List.cons_append, List.dropWhile_cons, if_pos (h c (List.mem_cons_self c t))]
    exact ih (fun x hx => h x (List.mem_cons_of_mem c hx))

theorem dropWhile_append_nil {p : Char → Bool} {l u : List Char}
    (h : l.dropWhile p = []) : (l ++ u).dropWhile p = u.dropWhile p := by
  induction l with
  | nil => rfl
  | cons c t ih =>
    rw [List.dropWhile_cons] at h
    by_cases hc : p c = true
    · rw [if_pos hc] at h
      rw [List.cons_append, List.dropWhile_cons, if_pos hc]
      exact ih h
    · rw [if_neg hc] at h
      exact absurd h (by simp)

theorem dropWhile_append_cons {p : Char → Bool} {l u : List Char} {x : Char}
    {xs : List Char} (h : l.dropWhile p = x :: xs) :
    (l ++ u).dropWhile p = x :: (xs ++ u) := by
  induction l with
  | nil => simp at h
  | cons c t ih =>
    rw [List.dropWhile_cons] at h
    by_cases hc : p c = true
    · rw [if_pos hc] at h
      rw [List.cons_append, List.dropWhile_cons, if_pos hc]
      exact ih h
    · rw [if_neg hc] at h
      injection h with hx hxs
      subst hx
      subst hxs
      rw [List.cons_append, List.dropWhile_cons, if_neg hc]

theorem stripWS_ws_left {u l : List Char} (h : ∀ c ∈ u, isPySpace c = true) :
    stripWS (u ++ l) = stripWS l := by
  unfold stripWS
  rw [dropWhile_ws_append h]

theorem stripWS_ws_right {l u : List Char} (h : ∀ c ∈ u, isPySpace c = true) :
    stripWS (l ++ u) = stripWS l := by
  unfold stripWS
  cases hl : l.dropWhile isPySpace with
  | nil =>
    rw [dropWhile_append_nil hl, dropWhile_all h]
  | cons x xs =>
    rw [dropWhile_append_cons hl]
    have hrev : (x :: (xs ++ u)).reverse = u.reverse ++ (xs.reverse ++ [x]) := by
      simp
    rw [hrev, dropWhile_ws_append (by intro c hc; exact h c (List.mem_reverse.mp hc))]
    have hrev2 : (x :: xs).reverse = xs.reverse ++ [x] := by simp
    rw [hrev2]

theorem takeRun_drop_head {p : Char → Bool} {l : List Char} {q : Nat}
    (h : q < takeRun p l) : ∃ c r, l.drop q = c :: r ∧ p c = true := by
  induction l generalizing q with
  | nil => simp [takeRun] at h
  | cons c cs ih =>
    rw [takeRun] at h
    by_cases hc : p c = true
    · rw [if_pos hc] at h
      cases q with
      | zero => exact ⟨c, cs, rfl, hc⟩
      | succ m =>
        rw [List.drop_succ_cons]
        exact ih (by omega)
    · rw [if_neg hc] at h
      omega

theorem ciStarts_cons_ws_false {p0 c : Char} {ps r : List Char}
    (hp0 : isPySpace p0 = false) (hc : isPySpace c = true) :
    ciStarts (p0 :: ps) (c :: r) = false := by
  have hcif : ciCharEq p0 c = false := by
    by_contra hciT
    rw [Bool.not_eq_false] at hciT
    have := isPySpace_eq_of_ciCharEq hciT
    rw [hp0, hc] at this
    exact Bool.noConfusion this
  rw [ciStarts, hcif]
  simp

theorem engStopOpt_isSome {s : List Char} {j : Nat} (hj : j ≤ s.length) :
    ∃ k0, engStopOpt s j = some k0 := by
  cases h : engStopOpt s j with
  | some k => exact ⟨k, rfl⟩
  | none =>
    exfalso
    unfold engStopOpt at h
    have hmem : s.length ∈ posList j (s.length + 1 - j) :=
      mem_posList.mpr ⟨hj, by omega⟩
    have := none_of_firstSome_eq_none h s.length hmem
    rw [if_pos (by simp [stopB])] at this
    exact Option.noConfusion this

theorem addrPost_nil_iff (s : List Char) (k : Nat) :
    runToks [tokAlt (tokLit "Postcode".data) tokEnd] s k = [] ↔
      stopB s k = false := by
  rw [runToks_single]
  unfold tokAlt tokLit tokEnd stopB
  by_cases h1 : ciStarts "Postcode".data (s.drop k) = true
  · simp [h1]
  · rw [Bool.not_eq_true] at h1
    by_cases h2 : ((k = s.length : Bool) || s.drop k == ['\n']) = true
    · simp [h1, h2]
    · rw [Bool.not_eq_true] at h2
      simp [h1, h2]

theorem addr_inner_total {s : List Char} {j k0 : Nat}
    (hk0 : engStopOpt s j = some k0) :
    firstSome (runToks [tokLazyAny] s j) (fun k =>
      if runToks [tokAlt (tokLit "Postcode".data) tokEnd] s k = [] then none
      else some (j, k)) = some (j, k0) := by
  rw [runToks_single]
  show firstSome (posList j (s.length + 1 - j)) _ = _
  have hcong : ∀ k ∈ posList j (s.length + 1 - j),
      (if runToks [tokAlt (tokLit "Postcode".data) tokEnd] s k = [] then none
        else some (j, k)) =
      (if stopB s k = true then some (j, k) else none) := by
    intro k _hk
    by_cases hb : stopB s k = true
    · rw [if_pos hb, if_neg]
      intro hnil
      rw [addrPost_nil_iff] at hnil
      rw [hb] at hnil
      exact Bool.noConfusion hnil
    · rw [Bool.not_eq_true] at hb
      rw [if_pos ((addrPost_nil_iff s k).mpr hb), if_neg (by rw [hb]; simp)]
  refine (firstSome_congr hcong).trans ?_
  refine (firstSome_ite_map _ _ _).trans ?_
  unfold engStopOpt at hk0
  rw [hk0]
  rfl

theorem catLists_cons (l : List α) (ls : List (List α)) :
    catLists (l :: ls) = l ++ catLists ls := rfl

theorem catLists_map_one (x : α) (f : α → List β) :
    catLists ([x].map f) = f x ++ [] := rfl

theorem runToks_colonStar (s : List Char) (A : Nat) (hA : A ≤ s.length) :
    ∃ tl, runToks [tokOpt (tokLit [':']), tokStar isPySpace] s A =
      (colonSkip s A + takeRun isPySpace (s.drop (colonSkip s A))) :: tl ∧
      colonSkip s A ≤ s.length := by
  have h1 : ([':'] : List Char).length = 1 := rfl
  unfold colonSkip
  by_cases hcol : ciStarts [':'] (s.drop A) = true
  · rw [if_pos hcol]
    have hopt : tokOpt (tokLit [':']) s A = [A + 1, A] := by
      unfold tokOpt tokLit
      rw [if_pos hcol, h1]
      rfl
    obtain ⟨tl0, htl0⟩ :=
      @descList_head (A + 1) (takeRun isPySpace (s.drop (A + 1))) 0 (Nat.zero_le _)
    refine ⟨tl0 ++ (runToks [tokStar isPySpace] s A ++ []), ?_, ?_⟩
    · rw [runToks_cons, hopt]
      show runToks [tokStar isPySpace] s (A + 1) ++
        (runToks [tokStar isPySpace] s A ++ []) = _
      rw [runToks_single]
      unfold tokStar
      rw [htl0, List.cons_append]
    · have := ciStarts_length hcol
      rw [h1, List.length_drop] at this
      omega
  · rw [if_neg hcol]
    have hopt : tokOpt (tokLit [':']) s A = [A] := by
      unfold tokOpt tokLit
      rw [if_neg hcol]
      rfl
    obtain ⟨tl0, htl0⟩ :=
      @descList_head A (takeRun isPySpace (s.drop A)) 0 (Nat.zero_le _)
    refine ⟨tl0 ++ [], ?_, hA⟩
    rw [runToks_cons, hopt, catLists_map_one, runToks_single]
    unfold tokStar
    rw [htl0, List.cons_append]

theorem runToks_preSupply (s : List Char) (i : Nat) :
    (runToks [tokLit "Supply".data, tokPlus isPySpace, tokLit "Address".data,
        tokOpt (tokLit [':']), tokStar isPySpace] s i = [] ∧
      labelSupplyCap s i = none) ∨
    (∃ q tl, labelSupplyCap s i = some q ∧
      runToks [tokLit "Supply".data, tokPlus isPySpace, tokLit "Address".data,
        tokOpt (tokLit [':']), tokStar isPySpace] s i =
        (q + takeRun isPySpace (s.drop q)) :: tl ∧
      q ≤ s.length) := by
  have h6 : ("Supply".data : List Char).length = 6 := rfl
  have h7 : ("Address".data : List Char).length = 7 := rfl
  by_cases hsup : ciStarts "Supply".data (s.drop i) = true
  · have hlit : tokLit "Supply".data s i = [i + 6] := by
      unfold tokLit
      rw [if_pos hsup, h6]
    by_cases hn : 1 ≤ takeRun isPySpace (s.drop (i + 6))
    · by_cases haddr : ciStarts "Address".data
          (s.drop (i + 6 + takeRun isPySpace (s.drop (i + 6)))) = true
      · right
        have hA_le : i + 6 + takeRun isPySpace (s.drop (i + 6)) + 7 ≤ s.length := by
          have := ciStarts_length haddr
          rw [h7, List.length_drop] at this
          omega
        obtain ⟨tl2, htl2, hcsle⟩ :=
          runToks_colonStar s (i + 6 + takeRun isPySpace (s.drop (i + 6)) + 7) hA_le
        have hlitA : tokLit "Address".data s
            (i + 6 + takeRun isPySpace (s.drop (i + 6))) =
            [i + 6 + takeRun isPySpace (s.drop (i + 6)) + 7] := by
          unfold tokLit
          rw [if_pos haddr, h7]
        have hrest3 : runToks [tokLit "Address".data, tokOpt (tokLit [':']),
            tokStar isPySpace] s (i + 6 + takeRun isPySpace (s.drop (i + 6))) =
            (colonSkip s (i + 6 + takeRun isPySpace (s.drop (i + 6)) + 7) +
              takeRun isPySpace (s.drop (colonSkip s
                (i + 6 + takeRun isPySpace (s.drop (i + 6)) + 7)))) :: tl2 := by
          rw [runToks_cons, hlitA, catLists_map_one, List.append_nil]
          exact htl2
        obtain ⟨tld, htld⟩ := @descList_head (i + 6)
          (takeRun isPySpace (s.drop (i + 6))) 1 hn
        have hplus : tokPlus isPySpace s (i + 6) =
            (i + 6 + takeRun isPySpace (s.drop (i + 6))) :: tld := by
          unfold tokPlus
          exact htld
        refine ⟨colonSkip s (i + 6 + takeRun isPySpace (s.drop (i + 6)) + 7),
          tl2 ++ catLists (tld.map (fun j => runToks [tokLit "Address".data,
            tokOpt (tokLit [':']), tokStar isPySpace] s j)), ?_, ?_, hcsle⟩
        · unfold labelSupplyCap
          rw [if_pos hsup, if_pos ⟨hn, haddr⟩]
        · rw [runToks_cons, hlit, catLists_map_one, List.append_nil,
            runToks_cons, hplus, List.map_cons, catLists_cons, hrest3,
            List.cons_append]
      · left
        constructor
        · rw [runToks_cons, hlit, catLists_map_one, List.append_nil, runToks_cons]
          apply catLists_map_nil
          intro m hm
          rw [mem_tokPlus] at hm
          obtain ⟨q1, hq1a, hq1b, rfl⟩ := hm
          show runToks [tokLit "Address".data, tokOpt (tokLit [':']),
            tokStar isPySpace] s (i + 6 + q1) = []
          have hlitf : tokLit "Address".data s (i + 6 + q1) = [] := by
            unfold tokLit
            rw [if_neg]
            intro hstarts
            rcases Nat.lt_or_ge q1 (takeRun isPySpace (s.drop (i + 6))) with hlt | hge
            · obtain ⟨c, r, hdr, hcws⟩ :=
                @takeRun_drop_head isPySpace (s.drop (i + 6)) q1 hlt
              rw [List.drop_drop] at hdr
              rw [hdr] at hstarts
              have hsplit : ("Address".data : List Char) = 'A' :: "ddress".data := rfl
              rw [hsplit, ciStarts_cons_ws_false (by decide) hcws] at hstarts
              exact Bool.noConfusion hstarts
            · have hq1n : q1 = takeRun isPySpace (s.drop (i + 6)) := by omega
              rw [hq1n] at hstarts
              exact haddr hstarts
          rw [runToks_cons, hlitf]
          rfl
        · unfold labelSupplyCap
          rw [if_pos hsup, if_neg (fun hc => haddr hc.2)]
    · left
      have hn0 : takeRun isPySpace (s.drop (i + 6)) = 0 := by omega
      constructor
      · rw [runToks_cons, hlit, catLists_map_one, List.append_nil, runToks_cons]
        have hplus0 : tokPlus isPySpace s (i + 6) = [] := by
          unfold tokPlus
          rw [hn0]
          rfl
        rw [hplus0]
        rfl
      · unfold labelSupplyCap
        rw [if_pos hsup, if_neg (fun hc => hn hc.1)]
  · left
    constructor
    · rw [runToks_cons]
      have hlitf : tokLit "Supply".data s i = [] := by
        unfold tokLit
        rw [if_neg hsup]
      rw [hlitf]
      rfl
    · unfold labelSupplyCap
      rw [if_neg hsup]

theorem runToks_preAddr (s : List Char) (i : Nat) :
    (runToks [tokLit "Address".data, tokOpt (tokLit [':']), tokStar isPySpace] s i
        = [] ∧ labelAddrCap s i = none) ∨
    (∃ q tl, labelAddrCap s i = some q ∧
      runToks [tokLit "Address".data, tokOpt (tokLit [':']), tokStar isPySpace] s i
        = (q + takeRun isPySpace (s.drop q)) :: tl ∧
      q ≤ s.length) := by
  have h7 : ("Address".data : List Char).length = 7 := rfl
  by_cases haddr : ciStarts "Address".data (s.drop i) = true
  · right
    have hA_le : i + 7 ≤ s.length := by
      have := ciStarts_length haddr
      rw [h7, List.length_drop] at this
      omega
    obtain ⟨tl2, htl2, hcsle⟩ := runToks_colonStar s (i + 7) hA_le
    refine ⟨colonSkip s (i + 7), tl2, ?_, ?_, hcsle⟩
    · unfold labelAddrCap
      rw [if_pos haddr]
    · have hlitA : tokLit "Address".data s i = [i + 7] := by
        unfold tokLit
        rw [if_pos haddr, h7]
      rw [runToks_cons, hlitA, catLists_map_one, List.append_nil]
      exact htl2
  · left
    constructor
    · rw [runToks_cons]
      have hlitf : tokLit "Address".data s i = [] := by
        unfold tokLit
        rw [if_neg haddr]
      rw [hlitf]
      rfl
    · unfold labelAddrCap
      rw [if_neg haddr]

theorem strip_slice_stop {s : List Char} {q k0 : Nat} (hq : q ≤ s.length)
    (hk0 : engStopOpt s (q + takeRun isPySpace (s.drop q)) = some k0) :
    stripWS (sliceL s (q + takeRun isPySpace (s.drop q)) k0) =
      stripWS (sliceL s q (pcStop s q)) := by
  have hw_le : takeRun isPySpace (s.drop q) ≤ s.length - q := by
    have := takeRun_le_length isPySpace (s.drop q)
    rw [List.length_drop] at this
    exact this
  have hqw_le : q + takeRun isPySpace (s.drop q) ≤ s.length := by omega
  have ha : ∀ X, q + takeRun isPySpace (s.drop q) ≤ X →
      stripWS (sliceL s q X) =
        stripWS (sliceL s (q + takeRun isPySpace (s.drop q)) X) := by
    intro X hX
    rw [@sliceL_append s q (q + takeRun isPySpace (s.drop q)) X (by omega) hX]
    exact stripWS_ws_left (sliceL_sat (le_refl _))
  have hpc_ws : ∀ k, q ≤ k → k < q + takeRun isPySpace (s.drop q) →
      ciStarts "Postcode".data (s.drop k) = false := by
    intro k h1 h2
    obtain ⟨c, r, hdr, hcws⟩ :=
      @takeRun_drop_head isPySpace (s.drop q) (k - q) (by omega)
    rw [List.drop_drop] at hdr
    have hkk : q + (k - q) = k := by omega
    rw [hkk] at hdr
    rw [hdr]
    have hsplit : ("Postcode".data : List Char) = 'P' :: "ostcode".data := rfl
    rw [hsplit]
    exact ciStarts_cons_ws_false (by decide) hcws
  unfold engStopOpt at hk0
  obtain ⟨k1, hk1a, hk1b, hk1c0, hk1d0⟩ := firstSome_posList_least hk0
  have hk1c : (if stopB s k1 = true then some k1 else none) = some k0 := hk1c0
  have hk1d : ∀ j, q + takeRun isPySpace (s.drop q) ≤ j → j < k1 →
      (if stopB s j = true then some j else none) = none := fun j h1 h2 => hk1d0 j h1 h2
  have hk1v : stopB s k1 = true ∧ k1 = k0 := by
    by_cases hb : stopB s k1 = true
    · rw [if_pos hb] at hk1c
      exact ⟨hb, Option.some.inj hk1c⟩
    · rw [if_neg hb] at hk1c
      exact absurd hk1c (by simp)
  obtain ⟨hstop, heq⟩ := hk1v
  subst heq
  unfold pcStop
  cases hfind : firstSome (posList q (s.length + 1 - q)) (fun k =>
      if ciStarts "Postcode".data (s.drop k) = true then some k else none) with
  | some k2 =>
    obtain ⟨k3, hk3a, hk3b, hk3c0, hk3d0⟩ := firstSome_posList_least hfind
    have hk3c : (if ciStarts "Postcode".data (s.drop k3) = true then some k3
        else none) = some k2 := hk3c0
    have hk3d : ∀ j, q ≤ j → j < k3 →
        (if ciStarts "Postcode".data (s.drop j) = true then some j else none) =
          none := fun j h1 h2 => hk3d0 j h1 h2
    have hk3v : ciStarts "Postcode".data (s.drop k3) = true ∧ k3 = k2 := by
      by_cases hb : ciStarts "Postcode".data (s.drop k3) = true
      · rw [if_pos hb] at hk3c
        exact ⟨hb, Option.some.inj hk3c⟩
      · rw [if_neg hb] at hk3c
        exact absurd hk3c (by simp)
    obtain ⟨hpck3, heq3⟩ := hk3v
    subst heq3
    have hpc_before : ∀ j, q ≤ j → j < k3 →
        ciStarts "Postcode".data (s.drop j) = false := by
      intro j h1 h2
      have hj := hk3d j h1 h2
      by_cases hb : ciStarts "Postcode".data (s.drop j) = true
      · rw [if_pos hb] at hj
        exact absurd hj (by simp)
      · rw [Bool.not_eq_true] at hb
        exact hb
    have hk3_ge : q + takeRun isPySpace (s.drop q) ≤ k3 := by
      by_contra hlt
      push_neg at hlt
      have := hpc_ws k3 hk3a hlt
      rw [this] at hpck3
      exact Bool.noConfusion hpck3
    have hpc8 : k3 + 8 ≤ s.length := by
      have := ciStarts_length hpck3
      have h8 : ("Postcode".data : List Char).length = 8 := rfl
      rw [h8, List.length_drop] at this
      omega
    have hk0_eq : k1 = k3 := by
      rcases Nat.lt_trichotomy k1 k3 with hlt | heq | hgt
      · exfalso
        have hpck0 : ciStarts "Postcode".data (s.drop k1) = false :=
          hpc_before k1 (by omega) hlt
        unfold stopB at hstop
        rw [hpck0] at hstop
        simp at hstop
        rcases hstop with h | h
        · omega
        · have hl := congrArg List.length h
          rw [List.length_drop] at hl
          simp at hl
          omega
      · exact heq
      · exfalso
        have hj := hk1d k3 (by omega) hgt
        rw [if_pos (by unfold stopB; rw [hpck3]; simp)] at hj
        exact absurd hj (by simp)
    rw [hk0_eq, Option.getD_some, ha k3 hk3_ge]
  | none =>
    have hnopc : ∀ k, q ≤ k → k ≤ s.length →
        ciStarts "Postcode".data (s.drop k) = false := by
      intro k h1 h2
      have hm0 := none_of_firstSome_eq_none hfind k
        (mem_posList.mpr ⟨h1, by omega⟩)
      have hm : (if ciStarts "Postcode".data (s.drop k) = true then some k
          else none) = none := hm0
      by_cases hb : ciStarts "Postcode".data (s.drop k) = true
      · rw [if_pos hb] at hm
        exact absurd hm (by simp)
      · rw [Bool.not_eq_true] at hb
        exact hb
    have hk0_le : k1 ≤ s.length := by omega
    have hpck0 : ciStarts "Postcode".data (s.drop k1) = false :=
      hnopc k1 (by omega) hk0_le
    unfold stopB at hstop
    rw [hpck0] at hstop
    simp at hstop
    rcases hstop with h | h
    · rw [h, Option.getD_none, ha s.length hqw_le]
    · have hk0len : k1 + 1 = s.length := by
        have hl := congrArg List.length h
        rw [List.length_drop] at hl
        simp at hl
        omega
      rw [Option.getD_none, ha s.length hqw_le]
      have hsplit2 : sliceL s (q + takeRun isPySpace (s.drop q)) s.length =
          sliceL s (q + takeRun isPySpace (s.drop q)) k1 ++ sliceL s k1 s.length :=
        @sliceL_append s (q + takeRun isPySpace (s.drop q)) k1 s.length hk1a (by omega)
      rw [hsplit2]
      have hnl : sliceL s k1 s.length = ['\n'] := by
        unfold sliceL
        rw [h]
        have hone : s.length - k1 = 1 := by omega
        rw [hone]
        rfl
      rw [hnl]
      refine (stripWS_ws_right ?_).symm
      intro c hc
      rw [List.mem_singleton] at hc
      rw [hc]
      decide

theorem matchAt_addr1_point (s : List Char) (i : Nat) :
    (matchAt addrP1 s i).map
        (fun jk => (⟨collapseWS (stripWS (sliceL s jk.1 jk.2))⟩ : String)) =
      (labelSupplyCap s i).map (fun c => addrResult s c) := by
  have hm : matchAt addrP1 s i =
      firstSome (runToks [tokLit "Supply".data, tokPlus isPySpace,
          tokLit "Address".data, tokOpt (tokLit [':']), tokStar isPySpace] s i)
        (fun j => firstSome (runToks [tokLazyAny] s j) (fun k =>
          if runToks [tokAlt (tokLit "Postcode".data) tokEnd] s k = [] then none
          else some (j, k))) := rfl
  rcases runToks_preSupply s i with ⟨hnil, hlab⟩ | ⟨q, tl, hlab, hlist, hql⟩
  · rw [hm, hnil, hlab]
    rfl
  · have hwle : q + takeRun isPySpace (s.drop q) ≤ s.length := by
      have := takeRun_le_length isPySpace (s.drop q)
      rw [List.length_drop] at this
      omega
    obtain ⟨k0, hk0⟩ := engStopOpt_isSome hwle
    have hfs : firstSome ((q + takeRun isPySpace (s.drop q)) :: tl)
        (fun j => firstSome (runToks [tokLazyAny] s j) (fun k =>
          if runToks [tokAlt (tokLit "Postcode".data) tokEnd] s k = [] then none
          else some (j, k))) = some (q + takeRun isPySpace (s.drop q), k0) := by
      apply firstSome_cons_some
      exact addr_inner_total hk0
    rw [hm, hlist, hfs, hlab]
    show some (⟨collapseWS (stripWS
      (sliceL s (q + takeRun isPySpace (s.drop q)) k0))⟩ : String) =
      some (addrResult s q)
    unfold addrResult
    rw [strip_slice_stop hql hk0]

theorem matchAt_addr2_point (s : List Char) (i : Nat) :
    (matchAt addrP2 s i).map
        (fun jk => (⟨collapseWS (stripWS (sliceL s jk.1 jk.2))⟩ : String)) =
      (labelAddrCap s i).map (fun c => addrResult s c) := by
  have hm : matchAt addrP2 s i =
      firstSome (runToks [tokLit "Address".data, tokOpt (tokLit [':']),
          tokStar isPySpace] s i)
        (fun j => firstSome (runToks [tokLazyAny] s j) (fun k =>
          if runToks [tokAlt (tokLit "Postcode".data) tokEnd] s k = [] then none
          else some (j, k))) := rfl
  rcases runToks_preAddr s i with ⟨hnil, hlab⟩ | ⟨q, tl, hlab, hlist, hql⟩
  · rw [hm, hnil, hlab]
    rfl
  · have hwle : q + takeRun isPySpace (s.drop q) ≤ s.length := by
      have := takeRun_le_length isPySpace (s.drop q)
      rw [List.length_drop] at this
      omega
    obtain ⟨k0, hk0⟩ := engStopOpt_isSome hwle
    have hfs : firstSome ((q + takeRun isPySpace (s.drop q)) :: tl)
        (fun j => firstSome (runToks [tokLazyAny] s j) (fun k =>
          if runToks [tokAlt (tokLit "Postcode".data) tokEnd] s k = [] then none
          else some (j, k))) = some (q + takeRun isPySpace (s.drop q), k0) := by
      apply firstSome_cons_some
      exact addr_inner_total hk0
    rw [hm, hlist, hfs, hlab]
    show some (⟨collapseWS (stripWS
      (sliceL s (q + takeRun isPySpace (s.drop q)) k0))⟩ : String) =
      some (addrResult s q)
    unfold addrResult
    rw [strip_slice_stop hql hk0]

theorem firstSome_pair (a b : α) (f : α → Option β) :
    firstSome [a, b] f =
      match f a with
      | some r => some r
      | none => f b := by
  cases hfa : f a <;> cases hfb : f b <;> simp [firstSome, hfa, hfb]

set_option maxHeartbeats 2000000 in
/-- C8: the address extractor equals, on every input text, the
specification's description: on a text containing a (case-insensitive)
"Supply Address:" label - or, failing that anywhere, an "Address:" label -
it captures the text after the first such label up to the literal token
"Postcode" or, failing that, the end of the text, spanning newlines, and
returns it with every whitespace run (newlines included) collapsed to one
space and with leading and trailing whitespace trimmed; with no label it
returns nothing. -/
theorem extract_address_spec (text : String) :
    extract_address text = addressSpec text.data := by
  have hP1 : (searchFirst addrP1 text.data).map
      (fun jk => (⟨collapseWS (stripWS (sliceL text.data jk.1 jk.2))⟩ : String)) =
      firstSome (posList 0 (text.data.length + 1))
        (fun i => (labelSupplyCap text.data i).map
          (fun c => addrResult text.data c)) := by
    unfold searchFirst
    rw [← firstSome_map_fuse]
    exact firstSome_congr (fun i _ => matchAt_addr1_point text.data i)
  have hP2 : (searchFirst addrP2 text.data).map
      (fun jk => (⟨collapseWS (stripWS (sliceL text.data jk.1 jk.2))⟩ : String)) =
      firstSome (posList 0 (text.data.length + 1))
        (fun i => (labelAddrCap text.data i).map
          (fun c => addrResult text.data c)) := by
    unfold searchFirst
    rw [← firstSome_map_fuse]
    exact firstSome_congr (fun i _ => matchAt_addr2_point text.data i)
  unfold extract_address address_patterns addressSpec
  cases hG1 : firstSome (posList 0 (text.data.length + 1))
      (fun i => (labelSupplyCap text.data i).map
        (fun c => addrResult text.data c)) with
  | some r =>
    exact @firstSome_cons_some Pat1 String addrP1 [addrP2]
      (fun p => (searchFirst p text.data).map
        (fun jk => (⟨collapseWS (stripWS (sliceL text.data jk.1 jk.2))⟩ : String)))
      r (hP1.trans hG1)
  | none =>
    rw [@firstSome_cons_none Pat1 String addrP1 [addrP2]
      (fun p => (searchFirst p text.data).map
        (fun jk => (⟨collapseWS (stripWS (sliceL text.data jk.1 jk.2))⟩ : String)))
      (hP1.trans hG1)]
    cases hG2 : firstSome (posList 0 (text.data.length + 1))
        (fun i => (labelAddrCap text.data i).map
          (fun c => addrResult text.data c)) with
    | some r2 =>
      exact @firstSome_cons_some Pat1 String addrP2 []
        (fun p => (searchFirst p text.data).map
          (fun jk => (⟨collapseWS (stripWS (sliceL text.data jk.1 jk.2))⟩ : String)))
        r2 (hP2.trans hG2)
    | none =>
      rw [@firstSome_cons_none Pat1 String addrP2 []
        (fun p => (searchFirst p text.data).map
          (fun jk => (⟨collapseWS (stripWS (sliceL text.data jk.1 jk.2))⟩ : String)))
        (hP2.trans hG2)]
      rfl
